import Mathlib

/-!
Verification development for the BER (Basic Encoding Rules) writer/reader pair
of this repository.  The two source files (a `Writer` class and a `Reader`
class) are shallowly embedded below: the `Writer`'s growable byte buffer is a
function `Nat → Nat` together with an allocated `size` and a logical write
`offset`; the `Reader`'s immutable input buffer is a `List Nat` of bytes.
JavaScript numbers are modelled by `Nat`/`Int` with explicit `% 2^k` wherever
the source relies on byte truncation, 32-bit coercion (`|`, `&`, `<<`, `>>>`)
or two's-complement wrap; fallible operations return the error alongside the
mutated state, mirroring the fact that a thrown exception in the source leaves
the partially-updated object behind.
-/

namespace Ber

/-- Error taxonomy.  `invalidAsn1` models `InvalidAsn1Error` (the
malformed-encoding kind, from errors.js), `typeErr` models a JavaScript
`TypeError`, and `genericErr` a plain `Error` (used by `writeOID` for a bad
OID grammar). -/
inductive BerError : Type where
  | invalidAsn1 : String → BerError
  | typeErr : String → BerError
  | genericErr : String → BerError
deriving DecidableEq, Repr

/-- Modelled from the spec: the Tag Registry (types.js) is not under src/, so
its named constants are taken from the spec (sections 3 and 6), which assigns
them the standard ASN.1 universal tag numbers.  No claim depends on the
particular values, only on writers and readers using the same constant. -/
def ASN1.Boolean : Nat := 1

/-- Modelled from the spec: see `ASN1.Boolean`. -/
def ASN1.Integer : Nat := 2

/-- Modelled from the spec: see `ASN1.Boolean`. -/
def ASN1.BitString : Nat := 3

/-- Modelled from the spec: see `ASN1.Boolean`. -/
def ASN1.OctetString : Nat := 4

/-- Modelled from the spec: see `ASN1.Boolean`. -/
def ASN1.Null : Nat := 5

/-- Modelled from the spec: see `ASN1.Boolean`. -/
def ASN1.OID : Nat := 6

/-- Modelled from the spec: see `ASN1.Boolean`. -/
def ASN1.Enumeration : Nat := 10

/-- Modelled from the spec: see `ASN1.Boolean`. -/
def ASN1.Sequence : Nat := 0x10

/-- Modelled from the spec: see `ASN1.Boolean`. -/
def ASN1.Constructor : Nat := 0x20

/-- Interpretation of a stored byte as a signed 8-bit integer
(`Buffer.readInt8`). -/
def sint8 (b : Nat) : Int := if b % 256 < 128 then ((b % 256 : Nat) : Int) else ((b % 256 : Nat) : Int) - 256

/-- Big-endian accumulation of a list of bytes, as done by the reader loops
`len = len * 256 + (buf[offset++] & 0xff)`. -/
def beNat (l : List Nat) : Nat := l.foldl (fun a b => a * 256 + b % 256) 0

/-!  ## The Writer  -/

/-- State of the source `Writer` class: `buf`/`size` model the allocated
`Buffer` (`this._buf`, `this._size`), `offset` is `this._offset`, and `seq` is
the pending-sequence stack `this._seq` (most recent offset first, as
`push`/`pop` act on the end of the JS array). -/
structure Writer where
  buf : Nat → Nat
  size : Nat
  offset : Nat
  growthFactor : Nat
  seq : List Nat

/-- The constructor `new Writer({size, growthFactor})`: a zero-filled buffer of
`size` bytes, offset 0, empty pending-sequence stack. -/
def Writer.new (size growthFactor : Nat) : Writer :=
  ⟨fun _ => 0, size, 0, growthFactor, []⟩

/-- A fresh writer with the constructor's default options
(`size = 1024`, `growthFactor = 8`). -/
def Writer.fresh : Writer := Writer.new 1024 8

/-- Writer `_ensure(len)`: if fewer than `len` bytes remain, allocate a new
zero-filled buffer of `size * growthFactor` bytes (plus `len` if still too
small), copy the committed region `[0, offset)` across, and adopt it.  The
copy source range is additionally clipped to the old and new buffer bounds,
as `Buffer.copy` clips. -/
def Writer.grownSize (w : Writer) (len : Nat) : Nat :=
  if w.size * w.growthFactor - w.offset < len then w.size * w.growthFactor + len
  else w.size * w.growthFactor

def Writer._ensure (w : Writer) (len : Nat) : Writer :=
  if w.size - w.offset < len then
    { w with
      buf := fun i => if i < w.offset ∧ i < w.size ∧ i < w.grownSize len then w.buf i else 0,
      size := w.grownSize len }
  else w

/-- A single byte store `this._buf[i] = b`: a `Buffer` element assignment
truncates the value to a byte and silently ignores out-of-range indices. -/
def Writer.put (w : Writer) (i b : Nat) : Writer :=
  if i < w.size then
    { w with buf := fun j => if j = i then b % 256 else w.buf j }
  else w

/-- The ubiquitous source idiom `this._buf[this._offset++] = b`. -/
def Writer.putAppend (w : Writer) (b : Nat) : Writer :=
  { w.put w.offset b with offset := w.offset + 1 }

/-- Writer `writeByte(b)` (the `TypeError` guard on non-numbers is enforced by
the Lean type). -/
def Writer.writeByte (w : Writer) (b : Nat) : Writer :=
  (w._ensure 1).putAppend b

/-- Fuel-driven helper for `intBytesLE` (structural recursion, so that the
kernel can evaluate it; the fuel is always sufficient, see `intBytesLE_eq`). -/
def intBytesLEA : Nat → Int → List Nat
  | 0, i => [(i.emod 256).toNat]
  | fuel + 1, i =>
    if -128 ≤ i ∧ i < 128 then [(i.emod 256).toNat]
    else (i.emod 256).toNat :: intBytesLEA fuel (i.fdiv 256)

/-- The byte list built by the loop in `writeInt`: repeatedly push the low
byte (`i & 0xff`, which for JS numbers is the floored-division remainder, i.e.
`Int.emod i 256`) and floor-divide by 256 (`Math.floor(i / 0x100)`, i.e.
`Int.fdiv`), while `i` lies outside `[-0x80, 0x80)`; finally push the low byte
of the in-range remainder.  The list is least-significant byte first, exactly
in the order the source pushes. -/
def intBytesLE (i : Int) : List Nat := intBytesLEA (i.natAbs + 1) i

theorem natAbs_fdiv_lt (i : Int) (h : ¬(-128 ≤ i ∧ i < 128)) :
    (i.fdiv 256).natAbs < i.natAbs := by
  have h1 := Int.fmod_add_fdiv i 256
  have h2 : 0 ≤ i.fmod 256 := Int.fmod_nonneg' i (by norm_num)
  have h3 : i.fmod 256 < 256 := Int.fmod_lt_of_pos i (by norm_num)
  simp only [not_and_or, not_le, not_lt] at h
  omega

theorem intBytesLEA_fuel_irrel :
    ∀ f1 : Nat, ∀ f2 : Nat, ∀ i : Int, i.natAbs < f1 → i.natAbs < f2 →
      intBytesLEA f1 i = intBytesLEA f2 i := by
  intro f1
  induction f1 with
  | zero => intro f2 i h1 h2; omega
  | succ f1 ih =>
    intro f2 i h1 h2
    cases f2 with
    | zero => omega
    | succ f2 =>
      unfold intBytesLEA
      split
      · rfl
      · rename_i hc
        have := natAbs_fdiv_lt i hc
        rw [ih f2 (i.fdiv 256) (by omega) (by omega)]

/-- The defining recursion of `intBytesLE`, mirroring the source loop. -/
theorem intBytesLE_eq (i : Int) :
    intBytesLE i =
      if -128 ≤ i ∧ i < 128 then [(i.emod 256).toNat]
      else (i.emod 256).toNat :: intBytesLE (i.fdiv 256) := by
  unfold intBytesLE
  conv_lhs => rw [intBytesLEA]
  split
  · rfl
  · rename_i hc
    have := natAbs_fdiv_lt i hc
    rw [intBytesLEA_fuel_irrel (i.natAbs) ((i.fdiv 256).natAbs + 1) (i.fdiv 256)
      (by omega) (by omega)]

/-- Writer `writeInt(i, tag)`: build the minimal two's-complement byte list,
ensure room for tag + length byte + payload, then write the tag, the byte
count as a single length octet, and the bytes most-significant first (the
source pops from the end of the little-endian list). -/
def Writer.writeInt (w : Writer) (i : Int) (tag : Nat := ASN1.Integer) : Writer :=
  let bytes := intBytesLE i
  let w := w._ensure (2 + bytes.length)
  let w := w.putAppend tag
  let w := w.putAppend bytes.length
  bytes.reverse.foldl Writer.putAppend w

/-- Writer `writeNull()`. -/
def Writer.writeNull (w : Writer) : Writer :=
  (w.writeByte ASN1.Null).writeByte 0x00

/-- Writer `writeEnumeration(i, tag)`: delegates to `writeInt`. -/
def Writer.writeEnumeration (w : Writer) (i : Int) (tag : Nat := ASN1.Enumeration) : Writer :=
  w.writeInt i tag

/-- Writer `writeBoolean(b, tag)`. -/
def Writer.writeBoolean (w : Writer) (b : Bool) (tag : Nat := ASN1.Boolean) : Writer :=
  let w := w._ensure 3
  ((w.putAppend tag).putAppend 0x01).putAppend (if b then 0xff else 0x00)

/-- Writer `writeLength(len)`: short form up to 0x7f, long form with 1, 2 or 3
value octets up to 0xffffff, `InvalidAsn1Error` beyond.  `len >> 8` and
`len >> 16` are division by 256 and 65536; `Buffer` assignment supplies the
`& 0xff` truncation (see `Writer.put`).  On the error branch the source throws
after `_ensure` has already run, so the grown state is kept. -/
def Writer.writeLength (w : Writer) (len : Nat) : Writer × Option BerError :=
  let w := w._ensure 4
  if len ≤ 0x7f then
    (w.putAppend len, none)
  else if len ≤ 0xff then
    ((w.putAppend 0x81).putAppend len, none)
  else if len ≤ 0xffff then
    (((w.putAppend 0x82).putAppend (len / 256)).putAppend len, none)
  else if len ≤ 0xffffff then
    ((((w.putAppend 0x83).putAppend (len / 65536)).putAppend (len / 256)).putAppend len, none)
  else
    (w, some (.invalidAsn1 "Length too long (> 4 bytes)"))

/-- Bulk byte copy into the buffer at the current offset followed by
`offset += data.length`, modelling `Buffer.write`/`Buffer.copy`; bytes falling
outside the allocated buffer are dropped, but the offset still advances by the
full length, as in the source. -/
def Writer.bulkWrite (w : Writer) (data : List Nat) : Writer :=
  { w with
    buf := fun i =>
      if w.offset ≤ i ∧ i < w.offset + data.length ∧ i < w.size then
        data.getD (i - w.offset) 0 % 256
      else w.buf i,
    offset := w.offset + data.length }

/-- Writer `writeString(s, tag)`: `s` stands for the UTF-8 bytes of the JS
string argument (`Buffer.byteLength(s)` is then `s.length`).  Tag byte, length
field, then the raw bytes if any. -/
def Writer.writeString (w : Writer) (s : List Nat) (tag : Nat := ASN1.OctetString) :
    Writer × Option BerError :=
  let len := s.length
  let w := w.writeByte tag
  match w.writeLength len with
  | (w, some e) => (w, some e)
  | (w, none) =>
    if len ≠ 0 then ((w._ensure len).bulkWrite s, none) else (w, none)

/-- Writer `writeBuffer(buf, tag)`: with a numeric tag, write tag + length
header first; with no tag the bytes are assumed to be a complete TLV and are
copied verbatim. -/
def Writer.writeBuffer (w : Writer) (data : List Nat) (tag : Option Nat) :
    Writer × Option BerError :=
  match tag with
  | some t =>
    let w := w.writeByte t
    (match w.writeLength data.length with
     | (w, some e) => (w, some e)
     | (w, none) =>
       if data.length > 0 then ((w._ensure data.length).bulkWrite data, none) else (w, none))
  | none =>
    if data.length > 0 then ((w._ensure data.length).bulkWrite data, none) else (w, none)

/-- Writer `writeStringArray(strings, tag)`: each element written by
`writeString`; a thrown error aborts the remainder. -/
def Writer.writeStringArray (w : Writer) (strings : List (List Nat)) (tag : Nat := ASN1.OctetString) :
    Writer × Option BerError :=
  match strings with
  | [] => (w, none)
  | s :: rest =>
    match w.writeString s tag with
    | (w, some e) => (w, some e)
    | (w, none) => w.writeStringArray rest tag

/-!  Dotted-decimal OID strings.  JS strings are modelled as `List Char`;
`String.prototype.split('.')` and `Array.prototype.join('.')` are modelled by
the two structural functions below, and `parseInt(p, 10)` on an all-digit part
by `parseDec`. -/

/-- The character for a single decimal (or binary) digit. -/
def digitChar (d : Nat) : Char := Char.ofNat (48 + d)

/-- Decimal digit test, as the regular expression character class `[0-9]`. -/
def isDigitChar (c : Char) : Bool := 48 ≤ c.toNat && c.toNat ≤ 57

/-- Value of an all-digit part, as `parseInt(p, 10)` computes it. -/
def parseDec (p : List Char) : Nat := p.foldl (fun a c => a * 10 + (c.toNat - 48)) 0

/-- Fuel-driven helper for `decRepr` (structural recursion so the kernel can
evaluate it; see `decRepr_eq`). -/
def decReprA : Nat → Nat → List Char
  | 0, n => [digitChar n]
  | fuel + 1, n => if n < 10 then [digitChar n] else decReprA fuel (n / 10) ++ [digitChar (n % 10)]

/-- Canonical decimal rendering of a natural number (the digits JavaScript
produces when a number is converted to a string). -/
def decRepr (n : Nat) : List Char := decReprA n n

theorem decReprA_fuel_irrel :
    ∀ f1 : Nat, ∀ f2 : Nat, ∀ n : Nat, n ≤ f1 * 9 + 9 → n ≤ f2 * 9 + 9 →
      decReprA f1 n = decReprA f2 n := by
  intro f1
  induction f1 with
  | zero =>
    intro f2 n h1 h2
    cases f2 with
    | zero => rfl
    | succ f2 =>
      unfold decReprA
      rw [if_pos (by omega)]
  | succ f1 ih =>
    intro f2 n h1 h2
    cases f2 with
    | zero =>
      unfold decReprA
      rw [if_pos (by omega)]
    | succ f2 =>
      unfold decReprA
      split
      · rfl
      · rw [ih f2 (n / 10) (by omega) (by omega)]

/-- The defining recursion of `decRepr`. -/
theorem decRepr_eq (n : Nat) :
    decRepr n = if n < 10 then [digitChar n] else decRepr (n / 10) ++ [digitChar (n % 10)] := by
  unfold decRepr
  cases hn : n with
  | zero => rfl
  | succ m =>
    conv_lhs => rw [decReprA]
    split
    · rfl
    · rw [decReprA_fuel_irrel m ((m + 1) / 10) ((m + 1) / 10) (by omega) (by omega)]

/-- Model of `s.split('.')`. -/
def splitDots : List Char → List (List Char)
  | [] => [[]]
  | c :: rest =>
    match splitDots rest with
    | [] => [[]]
    | p :: ps => if c = '.' then [] :: p :: ps else (c :: p) :: ps

/-- Model of `parts.join('.')`. -/
def joinDots : List (List Char) → List Char
  | [] => []
  | [p] => p
  | p :: ps => p ++ '.' :: joinDots ps

/-- The inner `encodeOctet` of `writeOID`: base-128 big-endian encoding of one
arc with the continuation bit 0x80 on every octet but the last.  The JS bit
operations are translated arithmetically: `x >>> k` first coerces to a 32-bit
unsigned value (`% 2^32`) and then divides by `2^k`; `x & 0x7F` is `% 128`;
and each `(x | 0x80) & 0xFF` forces bit 7 onto the low byte, which equals
`x % 128 + 128`.  Branch guards compare the raw value, as the source does. -/
def encodeOctet (octet : Nat) : List Nat :=
  let t := octet % 2 ^ 32
  if octet < 128 then
    [octet]
  else if octet < 16384 then
    [t / 2 ^ 7 + 0x80, t % 128]
  else if octet < 2097152 then
    [t / 2 ^ 14 + 0x80, t / 2 ^ 7 % 128 + 0x80, t % 128]
  else if octet < 268435456 then
    [t / 2 ^ 21 + 0x80, t / 2 ^ 14 % 128 + 0x80, t / 2 ^ 7 % 128 + 0x80, t % 128]
  else
    [t / 2 ^ 28 % 128 + 0x80, t / 2 ^ 21 % 128 + 0x80, t / 2 ^ 14 % 128 + 0x80,
      t / 2 ^ 7 % 128 + 0x80, t % 128]

/-- The value-octet list of `writeOID`: the first two arcs are combined as
`arc0 * 40 + arc1` and pushed as a single entry (written modulo 256 by the
byte store), the remaining arcs are base-128 encoded.  A single-component
string makes `tmp[1]` undefined in JS, so the combined entry is `NaN`, which a
`Buffer` stores as 0. -/
def oidArcBytes (arcs : List Nat) : List Nat :=
  match arcs with
  | [] => []
  | [_] => [0]
  | a0 :: a1 :: rest => (a0 * 40 + a1) :: rest.flatMap encodeOctet

/-- Tail of `writeOID` once the value octets are known: ensure room for tag,
length byte and octets, then write the tag, the length field, and each octet
through `writeByte`. -/
def Writer.writeOIDBytes (w : Writer) (bytes : List Nat) (tag : Nat) :
    Writer × Option BerError :=
  match ((w._ensure (2 + bytes.length)).writeByte tag).writeLength bytes.length with
  | (w, some e) => (w, some e)
  | (w, none) => (bytes.foldl Writer.writeByte w, none)

/-- Writer `writeOID(s, tag)`: validate the dotted-decimal grammar
(`^([0-9]+\.)*[0-9]+$`, equivalently: every dot-separated part is a nonempty
digit string), throwing a plain `Error` otherwise; then build the value
octets and write tag, length and octets. -/
def Writer.writeOID (w : Writer) (s : List Char) (tag : Nat := ASN1.OID) :
    Writer × Option BerError :=
  if ¬ ((splitDots s).all fun p => ¬ p.isEmpty && p.all isDigitChar) then
    (w, some (.genericErr "argument is not a valid OID string"))
  else
    w.writeOIDBytes (oidArcBytes ((splitDots s).map parseDec)) tag

/-- Writer `startSequence(tag)`: write the tag byte, push the current offset
on the pending-sequence stack, and reserve three placeholder octets for the
length field. -/
def Writer.startSequence (w : Writer) (tag : Nat := ASN1.Sequence + ASN1.Constructor) : Writer :=
  let w := w.writeByte tag
  let w := { w with seq := w.offset :: w.seq }
  let w := w._ensure 3
  { w with offset := w.offset + 3 }

/-- Writer `_shift(start, len, shift)`: `Buffer.copy` of the region
`[start, start + len)` onto `[start + shift, ...)` within the same buffer
(memmove semantics: every target byte receives the original source byte), the
copied count being clipped to the room left in the buffer; then
`offset += shift`. -/
def Writer._shift (w : Writer) (start len : Nat) (shift : Int) : Writer :=
  let tgt := ((start : Int) + shift).toNat
  let n := min len (min (w.size - tgt) (w.size - start))
  { w with
    buf := fun i =>
      if tgt ≤ i ∧ i < tgt + n then w.buf (((i : Int) - shift).toNat) else w.buf i,
    offset := ((w.offset : Int) + shift).toNat }

/-- Writer `endSequence()`: pop the most recent pending offset, compute the
payload length since the 3-octet placeholder, and rewrite the length in
minimal form, shifting the payload by -2, -1, 0 or +1 octets.  Lengths above
0xffffff throw.  On an empty stack, `pop()` yields undefined in JS, `start`
and `len` become NaN, every band comparison is false, and the final else
branch throws with no further state change. -/
def Writer.endSequence (w : Writer) : Writer × Option BerError :=
  match w.seq with
  | [] => (w, some (.invalidAsn1 "Sequence too long"))
  | s :: rest =>
    let w := { w with seq := rest }
    let start := s + 3
    let len := w.offset - start
    if len ≤ 0x7f then
      ((w._shift start len (-2)).put s len, none)
    else if len ≤ 0xff then
      let w := w._shift start len (-1)
      ((w.put s 0x81).put (s + 1) len, none)
    else if len ≤ 0xffff then
      (((w.put s 0x82).put (s + 1) (len / 256)).put (s + 2) len, none)
    else if len ≤ 0xffffff then
      let w := w._shift start len 1
      ((((w.put s 0x83).put (s + 1) (len / 65536)).put (s + 2) (len / 256)).put (s + 3) len, none)
    else
      (w, some (.invalidAsn1 "Sequence too long"))

/-- The committed bytes `[0, offset)` of a writer, as `subarray(0, offset)`
returns them (clipped to the allocated size, as `subarray` clips). -/
def Writer.outBytes (w : Writer) : List Nat :=
  (List.range (min w.offset w.size)).map w.buf

/-- The Writer's `buffer` accessor: throws `InvalidAsn1Error` while any
sequence is unended, otherwise returns the committed bytes. -/
def Writer.buffer (w : Writer) : Except BerError (List Nat) :=
  if w.seq.length ≠ 0 then
    .error (.invalidAsn1 (toString w.seq.length ++ " unended sequence(s)"))
  else
    .ok w.outBytes

/-!  ## The Reader  -/

/-- State of the source `Reader` class: the immutable input buffer, the
last-decoded length `this._len` and the cursor `this._offset`. -/
structure Reader where
  buf : List Nat
  len : Nat
  offset : Nat
deriving DecidableEq, Repr

/-- `this._size`, fixed at construction to the input length. -/
def Reader.size (r : Reader) : Nat := r.buf.length

/-- The constructor `new Reader(data)`. -/
def Reader.new (data : List Nat) : Reader := ⟨data, 0, 0⟩

/-- Outcome of a reader operation: a decoded value, the "no data" sentinel
(`null` in the source), or a thrown error; each case carries the reader state
left behind, since in JS the mutations made before a `return null` or a
`throw` persist on the object. -/
inductive RRes (α : Type) : Type where
  | ok : α → Reader → RRes α
  | noData : Reader → RRes α
  | err : BerError → Reader → RRes α
deriving DecidableEq, Repr

/-- Decidable equality for `Except` results (used to evaluate concrete
`readLength` outcomes). -/
instance {ε α : Type} [DecidableEq ε] [DecidableEq α] : DecidableEq (Except ε α) := fun a b =>
  match a, b with
  | .ok x, .ok y =>
    if h : x = y then .isTrue (by rw [h]) else .isFalse (by intro hc; cases hc; exact h rfl)
  | .error x, .error y =>
    if h : x = y then .isTrue (by rw [h]) else .isFalse (by intro hc; cases hc; exact h rfl)
  | .ok _, .error _ => .isFalse (by intro hc; cases hc)
  | .error _, .ok _ => .isFalse (by intro hc; cases hc)

/-- The decoded value, when the operation returned one. -/
def RRes.val? {α : Type} : RRes α → Option α
  | .ok v _ => some v
  | _ => none

/-- Forgets the decoded value, keeping the outcome shape and state. -/
def RRes.forget {α : Type} : RRes α → RRes Unit
  | .ok _ r => .ok () r
  | .noData r => .noData r
  | .err e r => .err e r

/-- Reader `readByte(peek)`: the next octet as an unsigned value, or the
"no data" sentinel when no byte remains; the offset advances unless peeking. -/
def Reader.readByte (r : Reader) (peek : Bool) : RRes Nat :=
  if r.size - r.offset < 1 then .noData r
  else
    let b := r.buf.getD r.offset 0 % 256
    if peek then .ok b r else .ok b { r with offset := r.offset + 1 }

/-- Reader `peek()`. -/
def Reader.peek (r : Reader) : RRes Nat := r.readByte true

/-- The tag-mismatch message `Expected tag 0x.., got 0x..` (hex digits as the
source renders them with `toString(16)`). -/
def expectedTagMsg (t b : Nat) : String :=
  "Expected tag 0x" ++ String.mk (Nat.toDigits 16 t) ++ ", got 0x" ++ String.mk (Nat.toDigits 16 b)

/-- Fuel-driven floor of the base-2 logarithm (structural recursion so the
kernel can evaluate it; `floorLog2 0 = 0`). -/
def floorLog2A : Nat → Nat → Nat
  | 0, _ => 0
  | f + 1, n => if n < 2 then 0 else floorLog2A f (n / 2) + 1

def floorLog2 (n : Nat) : Nat := floorLog2A n n

/-- Round a natural number to the nearest IEEE-754 double (53-bit
significand, ties to even), as JavaScript number arithmetic does on every
operation.  Exact below `2^53`; overflow to infinity is far beyond anything
reachable here (at most 127 length octets give values below `2^1016`). -/
def jsRound (n : Nat) : Nat :=
  if n < 2 ^ 53 then n
  else
    let u := 2 ^ (floorLog2 n - 52)
    let q := n / u
    let m := n % u
    if u / 2 < m ∨ (m = u / 2 ∧ q % 2 = 1) then (q + 1) * u else q * u

/-- The long-form length accumulation `this._len = this._len * 256 + byte`:
both the scaling and the addition are JavaScript float operations, so each
step rounds to a double (the scaling by 256 is itself exact).  Agrees with
the exact big-endian value `beNat` while everything stays below `2^53`, i.e.
for up to six octets; from seven octets on it can round. -/
def jsLenAcc (octets : List Nat) : Nat :=
  octets.foldl (fun a b => jsRound (a * 256 + b % 256)) 0

/-- Reader `readLength(offset)`: decode a length field at `off` without moving
the cursor.  Returns the sentinel (`none`) when the count octet or its
declared long-form octets are missing; rejects a long-form count of 0
(indefinite length) with `InvalidAsn1Error`.  The historical `lenB > 4` check
is commented out in the source (node-net-snmp issue 172), so any long-form
count 1..127 with enough octets available is accepted; the accumulated value
is computed in JavaScript float arithmetic (`jsLenAcc`), which rounds for
seven or more octets.  On success, returns the reader with `this._len`
updated and the offset just past the field. -/
def Reader.readLength (r : Reader) (off : Nat) : Except BerError (Option (Reader × Nat)) :=
  if off ≥ r.size then .ok none
  else
    let lenB := r.buf.getD off 0 % 256
    if 128 ≤ lenB then
      let n := lenB % 128
      if n = 0 then .error (.invalidAsn1 "Indefinite length not supported")
      else if r.size - (off + 1) < n then .ok none
      else .ok (some ({ r with len := jsLenAcc ((r.buf.drop (off + 1)).take n) }, off + 1 + n))
    else
      .ok (some ({ r with len := lenB }, off + 1))

/-- Reader `readSequence(tag)`: peek the tag, check it against the expected
one when given, decode the length one byte further, and advance the cursor to
just past the length field, returning the tag. -/
def Reader.readSequence (r : Reader) (tag : Option Nat) : RRes Nat :=
  match r.peek with
  | .noData _ => .noData r
  | .err e _ => .err e r
  | .ok seqTag _ =>
    let check : Option BerError :=
      match tag with
      | some t => if t ≠ seqTag then some (.invalidAsn1 (expectedTagMsg t seqTag)) else none
      | none => none
    match check with
    | some e => .err e r
    | none =>
      match r.readLength (r.offset + 1) with
      | .error e => .err e r
      | .ok none => .noData r
      | .ok (some (r₂, o)) => .ok seqTag { r₂ with offset := o }

/-- The integer-decoding loop of `_readTag`: the first payload byte is read
signed (`readInt8`), each further byte is accumulated by
`value = value * 256 + byte`. -/
def decodeBE (l : List Nat) : Int :=
  (l.drop 1).foldl (fun a b => a * 256 + (b : Int)) (sint8 (l.getD 0 0))

/-- Body of `_readTag` after the tag byte has been accepted: decode the
length, reject a zero-length integer, signal "no data" when the payload is
truncated, then decode the payload big-endian with a signed first byte
(`readInt8`), and reject results outside the safe-integer range
(`Number.isSafeInteger`, i.e. `|v| ≤ 2^53 - 1`).  In the loop the source
multiplies exactly while the magnitude stays below `2^53`, and any value that
left that range is rejected, so exact `Int` arithmetic with the final range
check is observationally faithful. -/
def Reader.readTagBody (r : Reader) : RRes Int :=
  match r.readLength (r.offset + 1) with
  | .error e => .err e r
  | .ok none => .noData r
  | .ok (some (r₂, o)) =>
    if r₂.len = 0 then .err (.invalidAsn1 "Zero-length integer") r₂
    else if r₂.len > r₂.size - o then .noData r₂
    else
      let v := decodeBE ((r₂.buf.drop o).take r₂.len)
      if 2 ^ 53 ≤ v.natAbs then
        .err (.invalidAsn1 "Integer not representable as javascript number")
          { r₂ with offset := o + r₂.len }
      else
        .ok v { r₂ with offset := o + r₂.len }

/-- Reader `_readTag(tag)`: peek the tag byte, check it when a constraint was
given, then decode via `readTagBody`. -/
def Reader._readTag (r : Reader) (tag : Option Nat) : RRes Int :=
  match r.peek with
  | .noData _ => .noData r
  | .err e _ => .err e r
  | .ok b _ =>
    match tag with
    | some t => if b ≠ t then .err (.invalidAsn1 (expectedTagMsg t b)) r else r.readTagBody
    | none => r.readTagBody

/-- Reader `readInt(tag)`: no default tag value is applied (the source comment
mentions `ASN1.Integer` but the parameter is passed through unchanged, so a
bare `readInt()` performs no tag check). -/
def Reader.readInt (r : Reader) (tag : Option Nat := none) : RRes Int :=
  r._readTag tag

/-- Reader `readEnumeration(tag)`. -/
def Reader.readEnumeration (r : Reader) (tag : Nat := ASN1.Enumeration) : RRes Int :=
  r._readTag (some tag)

/-- Reader `readBoolean(tag)`: returns `this._readTag(tag) !== 0`.  When
`_readTag` signals "no data" by returning null, `null !== 0` is `true`, so the
operation returns the ordinary value `true` instead of the sentinel. -/
def Reader.readBoolean (r : Reader) (tag : Nat := ASN1.Boolean) : RRes Bool :=
  match r._readTag (some tag) with
  | .ok v r' => .ok (v != 0) r'
  | .noData r' => .ok true r'
  | .err e r' => .err e r'

/-- Reader `readBuffer(tag)`: peek and check the tag, decode the length,
signal "no data" when the declared payload overruns the buffer, otherwise
advance past the value and return the payload slice. -/
def Reader.readBuffer (r : Reader) (tag : Nat := ASN1.OctetString) : RRes (List Nat) :=
  match r.peek with
  | .noData _ => .noData r
  | .err e _ => .err e r
  | .ok b _ =>
    if b ≠ tag then .err (.invalidAsn1 (expectedTagMsg tag b)) r
    else
      match r.readLength (r.offset + 1) with
      | .error e => .err e r
      | .ok none => .noData r
      | .ok (some (r₂, o)) =>
        if r₂.len > r₂.size - o then .noData r₂
        else .ok ((r₂.buf.drop o).take r₂.len) { r₂ with offset := o + r₂.len }

/-- Reader `readString(tag, encoding)`: delegates to `readBuffer`.  The model
returns the raw payload bytes, which is exactly the `encoding === true` path
the source itself uses from `readOID`; the further decoding of those bytes to
a host text string for other encodings is a representation change the claims
are insensitive to and is not modelled. -/
def Reader.readString (r : Reader) (tag : Nat := ASN1.OctetString) : RRes (List Nat) :=
  r.readBuffer tag

/-- JavaScript `ToInt32`: wrap into `[-2^31, 2^31)`. -/
def jsToInt32 (x : Int) : Int := (x + 2 ^ 31) % 2 ^ 32 - 2 ^ 31

/-- One step of the `readOID` decoding loop over the value bytes: the source
computes `value <<= 7` with 32-bit signed wrap, adds `byte & 0x7f`, and when
the continuation bit is clear pushes `value >>> 0` (the value modulo `2^32`)
and resets the accumulator. -/
def oidStep (st : List Nat × Int) (b : Nat) : List Nat × Int :=
  let v := jsToInt32 (jsToInt32 st.2 * 128) + (b % 128 : Nat)
  if b % 256 < 128 then (st.1 ++ [(v % (2 ^ 32 : Int)).toNat], 0) else (st.1, v)

/-- Reader `readOID(tag)`: read the raw value bytes, decode the base-128 arc
stream, split the first decoded value into two arcs via `(value / 40) >> 0`
and `value % 40` (for the values reachable here the truncating 32-bit shift is
plain division), and join the arcs with dots.  On an empty value the JS
`shift`/`unshift` dance on `undefined` produces the literal string "0.NaN". -/
def Reader.readOID (r : Reader) (tag : Nat := ASN1.OID) : RRes (List Char) :=
  match r.readString tag with
  | .noData r' => .noData r'
  | .err e r' => .err e r'
  | .ok bytes r' =>
    match (bytes.foldl oidStep ([], 0)).1 with
    | [] => .ok ('0' :: '.' :: 'N' :: 'a' :: 'N' :: []) r'
    | f :: rest => .ok (joinDots ((f / 40 :: f % 40 :: rest).map decRepr)) r'

/-- Fuel-driven helper for `bitsRepr` (structural recursion so the kernel can
evaluate it; see `bitsRepr_eq`). -/
def bitsReprA : Nat → Nat → List Char
  | 0, n => [digitChar n]
  | fuel + 1, n => if n < 2 then [digitChar n] else bitsReprA fuel (n / 2) ++ [digitChar (n % 2)]

/-- Binary rendering of a natural number, as `Number.prototype.toString(2)`
produces it for an exactly-representable value (no leading zeros; 0 is "0"). -/
def bitsRepr (n : Nat) : List Char := bitsReprA n n

theorem bitsReprA_fuel_irrel :
    ∀ f1 : Nat, ∀ f2 : Nat, ∀ n : Nat, n ≤ f1 + 1 → n ≤ f2 + 1 →
      bitsReprA f1 n = bitsReprA f2 n := by
  intro f1
  induction f1 with
  | zero =>
    intro f2 n h1 h2
    cases f2 with
    | zero => rfl
    | succ f2 =>
      unfold bitsReprA
      rw [if_pos (by omega)]
  | succ f1 ih =>
    intro f2 n h1 h2
    cases f2 with
    | zero =>
      unfold bitsReprA
      rw [if_pos (by omega)]
    | succ f2 =>
      unfold bitsReprA
      split
      · rfl
      · rw [ih f2 (n / 2) (by omega) (by omega)]

/-- The defining recursion of `bitsRepr`. -/
theorem bitsRepr_eq (n : Nat) :
    bitsRepr n = if n < 2 then [digitChar n] else bitsRepr (n / 2) ++ [digitChar (n % 2)] := by
  unfold bitsRepr
  cases hn : n with
  | zero => rfl
  | succ m =>
    conv_lhs => rw [bitsReprA]
    split
    · rfl
    · rw [bitsReprA_fuel_irrel m ((m + 1) / 2) ((m + 1) / 2) (by omega) (by omega)]

/-- Model of `String.prototype.padStart(target, '0')`. -/
def padStartZeros (target : Nat) (l : List Char) : List Char :=
  List.replicate (target - l.length) '0' ++ l

/-- Reader `readBitString(tag)`: peek and check the tag, decode the length,
signal "no data" on a truncated payload, return "" for a zero length;
otherwise the first payload octet is the ignored-bits count, the remaining
octets are rendered in binary zero-padded to 8 digits each
(`parseInt(hex, 16).toString(2).padStart(...)`, exact while the value stays
below `2^53`, i.e. for at most 6 content octets), and the last `ignoredBits`
characters are trimmed (`substring` clamps like `List.take`).  With zero
content octets `parseInt('', 16)` is NaN and the rendered string is the
literal "NaN". -/
def Reader.readBitString (r : Reader) (tag : Nat := ASN1.BitString) : RRes (List Char) :=
  match r.peek with
  | .noData _ => .noData r
  | .err e _ => .err e r
  | .ok b _ =>
    if b ≠ tag then .err (.invalidAsn1 (expectedTagMsg tag b)) r
    else
      match r.readLength (r.offset + 1) with
      | .error e => .err e r
      | .ok none => .noData r
      | .ok (some (r₂, o)) =>
        if r₂.len > r₂.size - o then .noData r₂
        else
          let r₃ : Reader := { r₂ with offset := o }
          if r₃.len = 0 then .ok [] r₃
          else
            let ignoredBits := r₃.buf.getD r₃.offset 0
            let octets := (r₃.buf.drop (r₃.offset + 1)).take (r₃.len - 1)
            let str :=
              if octets.isEmpty then 'N' :: 'a' :: 'N' :: []
              else padStartZeros (8 * octets.length) (bitsRepr (beNat octets))
            .ok (str.take (str.length - ignoredBits)) { r₃ with offset := r₃.offset + r₃.len }

/-!  ## Operation enumerations

To quantify over "every sequence of Writer operations" and "every Reader read
operation" the public operations are reified as plain data. -/

/-- One public Writer operation with its arguments. -/
inductive WOp : Type where
  | wByte (b : Nat)
  | wInt (i : Int) (tag : Nat)
  | wNull
  | wEnum (i : Int) (tag : Nat)
  | wBool (b : Bool) (tag : Nat)
  | wString (s : List Nat) (tag : Nat)
  | wBuffer (data : List Nat) (tag : Option Nat)
  | wStringArray (ss : List (List Nat)) (tag : Nat)
  | wOID (s : List Char) (tag : Nat)
  | wLength (len : Nat)
  | startSeq (tag : Nat)
  | endSeq

/-- Run one Writer operation, returning the mutated writer and the error it
threw, if any (a JS exception leaves the object in its partially-updated
state, which the caller may keep using). -/
def applyWOp (w : Writer) (op : WOp) : Writer × Option BerError :=
  match op with
  | .wByte b => (w.writeByte b, none)
  | .wInt i tag => (w.writeInt i tag, none)
  | .wNull => (w.writeNull, none)
  | .wEnum i tag => (w.writeEnumeration i tag, none)
  | .wBool b tag => (w.writeBoolean b tag, none)
  | .wString s tag => w.writeString s tag
  | .wBuffer data tag => w.writeBuffer data tag
  | .wStringArray ss tag => w.writeStringArray ss tag
  | .wOID s tag => w.writeOID s tag
  | .wLength len => w.writeLength len
  | .startSeq tag => (w.startSequence tag, none)
  | .endSeq => w.endSequence

/-- Run a list of Writer operations in order, keeping the mutated state even
across thrown errors. -/
def runOps (w : Writer) (ops : List WOp) : Writer :=
  ops.foldl (fun w op => (applyWOp w op).1) w

/-- One public Reader read operation with its arguments. -/
inductive ROp : Type where
  | rByte (peek : Bool)
  | rSeq (tag : Option Nat)
  | rInt (tag : Option Nat)
  | rEnum (tag : Nat)
  | rBoolean (tag : Nat)
  | rBuffer (tag : Nat)
  | rString (tag : Nat)
  | rOID (tag : Nat)
  | rBitString (tag : Nat)
deriving DecidableEq, Repr

/-- Whether the operation is `readBoolean` (whose sentinel behaviour is the
odd one out). -/
def ROp.isBool : ROp → Bool
  | .rBoolean _ => true
  | _ => false

/-- Run one Reader read operation, forgetting the decoded value but keeping
the outcome shape and the reader state. -/
def applyROp (op : ROp) (r : Reader) : RRes Unit :=
  match op with
  | .rByte p => (r.readByte p).forget
  | .rSeq t => (r.readSequence t).forget
  | .rInt t => (r.readInt t).forget
  | .rEnum t => (r.readEnumeration t).forget
  | .rBoolean t => (r.readBoolean t).forget
  | .rBuffer t => (r.readBuffer t).forget
  | .rString t => (r.readString t).forget
  | .rOID t => (r.readOID t).forget
  | .rBitString t => (r.readBitString t).forget

/-!  ## Basic Writer lemmas  -/

/-- The Writer's basic well-formedness: the committed region lies inside the
allocated buffer, and the growth factor is at least 1 (the constructor default
is 8; a fractional or zero factor would defeat `_ensure`). -/
def WInv (w : Writer) : Prop := w.offset ≤ w.size ∧ 1 ≤ w.growthFactor

theorem ensure_offset (w : Writer) (len : Nat) : (w._ensure len).offset = w.offset := by
  unfold Writer._ensure
  split <;> rfl

theorem ensure_seq (w : Writer) (len : Nat) : (w._ensure len).seq = w.seq := by
  unfold Writer._ensure
  split <;> rfl

theorem ensure_growthFactor (w : Writer) (len : Nat) :
    (w._ensure len).growthFactor = w.growthFactor := by
  unfold Writer._ensure
  split <;> rfl

theorem grownSize_ge (w : Writer) (len : Nat) (h : WInv w) :
    w.offset + len ≤ w.grownSize len ∨ len ≤ w.size - w.offset := by
  obtain ⟨h1, h2⟩ := h
  have hsz : w.offset ≤ w.size * w.growthFactor := le_trans h1 (Nat.le_mul_of_pos_right _ h2)
  unfold Writer.grownSize
  split <;> omega

theorem ensure_room (w : Writer) (len : Nat) (h : WInv w) :
    w.offset + len ≤ (w._ensure len).size := by
  have hg := grownSize_ge w len h
  obtain ⟨h1, h2⟩ := h
  unfold Writer._ensure
  split
  · dsimp only
    omega
  · omega

theorem ensure_buf_lt (w : Writer) (len : Nat) (h : WInv w) {i : Nat} (hi : i < w.offset) :
    (w._ensure len).buf i = w.buf i := by
  have hg := grownSize_ge w len h
  obtain ⟨h1, h2⟩ := h
  unfold Writer._ensure
  split
  · simp only
    rw [if_pos (by omega)]
  · rfl

theorem ensure_inv (w : Writer) (len : Nat) (h : WInv w) : WInv (w._ensure len) := by
  refine ⟨?_, ?_⟩
  · have := ensure_room w len h
    have := ensure_offset w len
    omega
  · rw [ensure_growthFactor]
    exact h.2

theorem ensure_outBytes (w : Writer) (len : Nat) (h : WInv w) :
    (w._ensure len).outBytes = w.outBytes := by
  have hro := ensure_room w len h
  have hof := ensure_offset w len
  obtain ⟨hw1, hw2⟩ := id h
  have h1 : min (w._ensure len).offset (w._ensure len).size = w.offset := by omega
  have h2 : min w.offset w.size = w.offset := by omega
  unfold Writer.outBytes
  rw [h1, h2]
  exact List.map_congr_left fun i hi => ensure_buf_lt w len h (List.mem_range.mp hi)

theorem putAppend_offset (w : Writer) (b : Nat) : (w.putAppend b).offset = w.offset + 1 := rfl

theorem putAppend_size (w : Writer) (b : Nat) : (w.putAppend b).size = w.size := by
  unfold Writer.putAppend Writer.put
  split <;> rfl

theorem putAppend_seq (w : Writer) (b : Nat) : (w.putAppend b).seq = w.seq := by
  unfold Writer.putAppend Writer.put
  split <;> rfl

theorem putAppend_growthFactor (w : Writer) (b : Nat) :
    (w.putAppend b).growthFactor = w.growthFactor := by
  unfold Writer.putAppend Writer.put
  split <;> rfl

theorem putAppend_buf_lt (w : Writer) (b : Nat) {i : Nat} (hi : i < w.offset) :
    (w.putAppend b).buf i = w.buf i := by
  unfold Writer.putAppend Writer.put
  split
  · simp only
    rw [if_neg (by omega)]
  · rfl

theorem putAppend_buf_self (w : Writer) (b : Nat) (h : w.offset < w.size) :
    (w.putAppend b).buf w.offset = b % 256 := by
  unfold Writer.putAppend Writer.put
  rw [if_pos h]
  simp

theorem putAppend_outBytes (w : Writer) (b : Nat) (h : w.offset < w.size) :
    (w.putAppend b).outBytes = w.outBytes ++ [b % 256] := by
  unfold Writer.outBytes
  rw [putAppend_offset, putAppend_size]
  have h1 : min (w.offset + 1) w.size = w.offset + 1 := by omega
  have h2 : min w.offset w.size = w.offset := by omega
  rw [h1, h2, List.range_succ, List.map_append]
  congr 1
  · exact List.map_congr_left fun i hi => putAppend_buf_lt w b (List.mem_range.mp hi)
  · simp [putAppend_buf_self w b h]

/-- An operation took `w` to `w'` by appending exactly the bytes `bs` to the
committed output, leaving the pending-sequence stack and growth factor alone
and staying within capacity. -/
def Emits (w w' : Writer) (bs : List Nat) : Prop :=
  w'.outBytes = w.outBytes ++ bs ∧ w'.offset = w.offset + bs.length ∧
    w'.seq = w.seq ∧ w'.growthFactor = w.growthFactor ∧ WInv w'

theorem Emits.trans {w w' w'' : Writer} {a b : List Nat}
    (h1 : Emits w w' a) (h2 : Emits w' w'' b) : Emits w w'' (a ++ b) := by
  obtain ⟨o1, f1, s1, g1, i1⟩ := h1
  obtain ⟨o2, f2, s2, g2, i2⟩ := h2
  refine ⟨?_, ?_, ?_, ?_, i2⟩
  · rw [o2, o1, List.append_assoc]
  · rw [f2, f1, List.length_append]
    omega
  · rw [s2, s1]
  · rw [g2, g1]

theorem outBytes_length (w : Writer) (h : WInv w) : w.outBytes.length = w.offset := by
  obtain ⟨h1, h2⟩ := h
  unfold Writer.outBytes
  rw [List.length_map, List.length_range]
  omega

theorem emits_offset {w w' : Writer} {bs : List Nat} (h : Emits w w' bs) :
    w'.offset = w.offset + bs.length := h.2.1

theorem foldl_putAppend_emits (l : List Nat) (w : Writer)
    (hinv : WInv w) (h : w.offset + l.length ≤ w.size) :
    Emits w (l.foldl Writer.putAppend w) (l.map (· % 256)) ∧
    (l.foldl Writer.putAppend w).size = w.size := by
  induction l generalizing w with
  | nil =>
    exact ⟨⟨by simp, by simp, rfl, rfl, hinv⟩, rfl⟩
  | cons b rest ih =>
    simp only [List.foldl_cons, List.length_cons] at h ⊢
    have hlt : w.offset < w.size := by omega
    have hstep : Emits w (w.putAppend b) [b % 256] ∧ (w.putAppend b).size = w.size := by
      refine ⟨⟨putAppend_outBytes w b hlt, by simp [putAppend_offset], putAppend_seq w b,
        putAppend_growthFactor w b, ?_⟩, putAppend_size w b⟩
      constructor
      · rw [putAppend_offset, putAppend_size]
        omega
      · rw [putAppend_growthFactor]
        exact hinv.2
    have hrest := ih (w.putAppend b) hstep.1.2.2.2.2
      (by rw [putAppend_offset, putAppend_size]; omega)
    refine ⟨?_, by rw [hrest.2, hstep.2]⟩
    have := hstep.1.trans hrest.1
    simpa using this

theorem writeByte_emits (w : Writer) (b : Nat) (h : WInv w) :
    Emits w (w.writeByte b) [b % 256] := by
  unfold Writer.writeByte
  have hro := ensure_room w 1 h
  have hof := ensure_offset w 1
  have hinv' := ensure_inv w 1 h
  have hlt : (w._ensure 1).offset < (w._ensure 1).size := by omega
  refine ⟨?_, ?_, ?_, ?_, ?_⟩
  · rw [putAppend_outBytes _ b hlt, ensure_outBytes w 1 h]
  · rw [putAppend_offset, hof]
    rfl
  · rw [putAppend_seq, ensure_seq]
  · rw [putAppend_growthFactor, ensure_growthFactor]
  · constructor
    · rw [putAppend_offset, putAppend_size]
      omega
    · rw [putAppend_growthFactor, ensure_growthFactor]
      exact h.2

theorem foldl_writeByte_emits (l : List Nat) (w : Writer) (hinv : WInv w) :
    Emits w (l.foldl Writer.writeByte w) (l.map (· % 256)) := by
  induction l generalizing w with
  | nil => exact ⟨by simp, by simp, rfl, rfl, hinv⟩
  | cons b rest ih =>
    simp only [List.foldl_cons, List.map_cons]
    have h1 := writeByte_emits w b hinv
    have h2 := ih (w.writeByte b) h1.2.2.2.2
    simpa using h1.trans h2

/-- The four non-error bands of `writeLength` append exactly the documented
byte patterns; the error band leaves the committed bytes alone (only the
buffer may have grown) and reports the malformed-encoding error. -/
theorem writeLength_emits (w : Writer) (len : Nat) (h : WInv w) :
    (len ≤ 0x7f → Emits w (w.writeLength len).1 [len] ∧ (w.writeLength len).2 = none) ∧
    (0x7f < len → len ≤ 0xff → Emits w (w.writeLength len).1 [0x81, len] ∧
      (w.writeLength len).2 = none) ∧
    (0xff < len → len ≤ 0xffff →
      Emits w (w.writeLength len).1 [0x82, len / 256, len % 256] ∧
      (w.writeLength len).2 = none) ∧
    (0xffff < len → len ≤ 0xffffff →
      Emits w (w.writeLength len).1 [0x83, len / 65536, len / 256 % 256, len % 256] ∧
      (w.writeLength len).2 = none) ∧
    (0xffffff < len →
      (w.writeLength len).1.outBytes = w.outBytes ∧
      (w.writeLength len).2 = some (.invalidAsn1 "Length too long (> 4 bytes)") ∧
      (w.writeLength len).1.seq = w.seq ∧ WInv (w.writeLength len).1) := by
  have hro := ensure_room w 4 h
  have hof := ensure_offset w 4
  have hinv' := ensure_inv w 4 h
  have hout := ensure_outBytes w 4 h
  have hseq := ensure_seq w 4
  have hgf := ensure_growthFactor w 4
  have hens : Emits w (w._ensure 4) [] := ⟨by simpa using hout, by simpa using hof, hseq, hgf, hinv'⟩
  have happ : ∀ l : List Nat, l.length ≤ 4 →
      Emits w (l.foldl Writer.putAppend (w._ensure 4)) (l.map (· % 256)) := by
    intro l hl
    have := (foldl_putAppend_emits l (w._ensure 4) hinv' (by omega)).1
    simpa using hens.trans this
  unfold Writer.writeLength
  refine ⟨?_, ?_, ?_, ?_, ?_⟩
  · intro h1
    rw [if_pos h1]
    have := happ [len] (by simp)
    simp only [List.map_cons, List.map_nil] at this
    rw [Nat.mod_eq_of_lt (by omega)] at this
    exact ⟨this, rfl⟩
  · intro h1 h2
    rw [if_neg (by omega), if_pos h2]
    have := happ [0x81, len] (by simp)
    simp only [List.map_cons, List.map_nil] at this
    rw [Nat.mod_eq_of_lt (show (0x81 : Nat) < 256 by norm_num),
      Nat.mod_eq_of_lt (show len < 256 by omega)] at this
    exact ⟨this, rfl⟩
  · intro h1 h2
    rw [if_neg (by omega), if_neg (by omega), if_pos h2]
    have := happ [0x82, len / 256, len] (by simp)
    simp only [List.map_cons, List.map_nil] at this
    rw [Nat.mod_eq_of_lt (show (0x82 : Nat) < 256 by norm_num),
      Nat.mod_eq_of_lt (show len / 256 < 256 by omega)] at this
    exact ⟨this, rfl⟩
  · intro h1 h2
    rw [if_neg (by omega), if_neg (by omega), if_neg (by omega), if_pos h2]
    have := happ [0x83, len / 65536, len / 256, len] (by simp)
    simp only [List.map_cons, List.map_nil] at this
    rw [Nat.mod_eq_of_lt (show (0x83 : Nat) < 256 by norm_num),
      Nat.mod_eq_of_lt (show len / 65536 < 256 by omega)] at this
    exact ⟨this, rfl⟩
  · intro h1
    rw [if_neg (by omega), if_neg (by omega), if_neg (by omega), if_neg (by omega)]
    exact ⟨hout, rfl, hseq, hinv'⟩

/-- C7: `Writer.writeLength(len)` emits exactly `[len]` for `len ≤ 0x7F`,
`[0x81, len]` for `0x7F < len ≤ 0xFF`, `[0x82, len >> 8, len & 0xFF]` for
`0xFF < len ≤ 0xFFFF`, `[0x83, len >> 16, (len >> 8) & 0xFF, len & 0xFF]` for
`0xFFFF < len ≤ 0xFFFFFF`, and fails with the malformed-encoding error kind
(appending nothing) for `len > 0xFFFFFF`. -/
theorem C7_writeLength_bands (w : Writer) (len : Nat) (h : WInv w) :
    (len ≤ 0x7f →
      (w.writeLength len).1.outBytes = w.outBytes ++ [len] ∧ (w.writeLength len).2 = none) ∧
    (0x7f < len → len ≤ 0xff →
      (w.writeLength len).1.outBytes = w.outBytes ++ [0x81, len] ∧
      (w.writeLength len).2 = none) ∧
    (0xff < len → len ≤ 0xffff →
      (w.writeLength len).1.outBytes = w.outBytes ++ [0x82, len / 256, len % 256] ∧
      (w.writeLength len).2 = none) ∧
    (0xffff < len → len ≤ 0xffffff →
      (w.writeLength len).1.outBytes =
        w.outBytes ++ [0x83, len / 65536, len / 256 % 256, len % 256] ∧
      (w.writeLength len).2 = none) ∧
    (0xffffff < len →
      (w.writeLength len).2 = some (.invalidAsn1 "Length too long (> 4 bytes)") ∧
      (w.writeLength len).1.outBytes = w.outBytes) := by
  have H := writeLength_emits w len h
  exact ⟨fun h1 => ⟨(H.1 h1).1.1, (H.1 h1).2⟩,
    fun h1 h2 => ⟨(H.2.1 h1 h2).1.1, (H.2.1 h1 h2).2⟩,
    fun h1 h2 => ⟨(H.2.2.1 h1 h2).1.1, (H.2.2.1 h1 h2).2⟩,
    fun h1 h2 => ⟨(H.2.2.2.1 h1 h2).1.1, (H.2.2.2.1 h1 h2).2⟩,
    fun h1 => ⟨(H.2.2.2.2 h1).2.1, (H.2.2.2.2 h1).1⟩⟩

/-- Witness for C7 at the claim's own boundary value: length 16777216 fails
with the malformed-encoding kind and emits nothing. -/
theorem C7_writeLength_bands_witness :
    (Writer.fresh.writeLength 16777216).2 =
      some (.invalidAsn1 "Length too long (> 4 bytes)") ∧
    (Writer.fresh.writeLength 16777216).1.outBytes = Writer.fresh.outBytes :=
  (C7_writeLength_bands Writer.fresh 16777216 ⟨by decide, by decide⟩).2.2.2.2 (by norm_num)

/-!  Pending-sequence stack bookkeeping.  -/

theorem put_seq (w : Writer) (i b : Nat) : (w.put i b).seq = w.seq := by
  unfold Writer.put
  split <;> rfl

theorem shift_seq (w : Writer) (start len : Nat) (sh : Int) :
    (w._shift start len sh).seq = w.seq := rfl

theorem bulkWrite_seq (w : Writer) (data : List Nat) : (w.bulkWrite data).seq = w.seq := rfl

theorem writeByte_seq (w : Writer) (b : Nat) : (w.writeByte b).seq = w.seq := by
  unfold Writer.writeByte
  rw [putAppend_seq, ensure_seq]

theorem foldl_putAppend_seq (l : List Nat) (w : Writer) :
    (l.foldl Writer.putAppend w).seq = w.seq := by
  induction l generalizing w with
  | nil => rfl
  | cons b rest ih => simp [List.foldl_cons, ih, putAppend_seq]

theorem foldl_writeByte_seq (l : List Nat) (w : Writer) :
    (l.foldl Writer.writeByte w).seq = w.seq := by
  induction l generalizing w with
  | nil => rfl
  | cons b rest ih => simp [List.foldl_cons, ih, writeByte_seq]

theorem writeInt_seq (w : Writer) (i : Int) (tag : Nat) : (w.writeInt i tag).seq = w.seq := by
  unfold Writer.writeInt
  rw [foldl_putAppend_seq, putAppend_seq, putAppend_seq, ensure_seq]

theorem writeLength_seq (w : Writer) (len : Nat) : (w.writeLength len).1.seq = w.seq := by
  unfold Writer.writeLength
  split_ifs <;> simp [putAppend_seq, ensure_seq]

theorem writeBoolean_seq (w : Writer) (b : Bool) (tag : Nat) :
    (w.writeBoolean b tag).seq = w.seq := by
  unfold Writer.writeBoolean
  rw [putAppend_seq, putAppend_seq, putAppend_seq, ensure_seq]

theorem writeNull_seq (w : Writer) : w.writeNull.seq = w.seq := by
  unfold Writer.writeNull
  rw [writeByte_seq, writeByte_seq]

theorem writeString_seq (w : Writer) (s : List Nat) (tag : Nat) :
    (w.writeString s tag).1.seq = w.seq := by
  unfold Writer.writeString
  dsimp only
  rcases hw : (w.writeByte tag).writeLength s.length with ⟨w2, e⟩
  have h2 : w2.seq = w.seq := by
    have h3 := writeLength_seq (w.writeByte tag) s.length
    rw [hw] at h3
    rw [h3, writeByte_seq]
  cases e with
  | some e => exact h2
  | none =>
    dsimp only
    split
    · rw [bulkWrite_seq, ensure_seq]
      exact h2
    · exact h2

theorem writeBuffer_seq (w : Writer) (data : List Nat) (tag : Option Nat) :
    (w.writeBuffer data tag).1.seq = w.seq := by
  unfold Writer.writeBuffer
  cases tag with
  | none =>
    dsimp only
    split
    · rw [bulkWrite_seq, ensure_seq]
    · rfl
  | some t =>
    dsimp only
    rcases hw : (w.writeByte t).writeLength data.length with ⟨w2, e⟩
    have h2 : w2.seq = w.seq := by
      have h3 := writeLength_seq (w.writeByte t) data.length
      rw [hw] at h3
      rw [h3, writeByte_seq]
    cases e with
    | some e => exact h2
    | none =>
      dsimp only
      split
      · rw [bulkWrite_seq, ensure_seq]
        exact h2
      · exact h2

theorem writeStringArray_seq (w : Writer) (ss : List (List Nat)) (tag : Nat) :
    (w.writeStringArray ss tag).1.seq = w.seq := by
  induction ss generalizing w with
  | nil => rfl
  | cons s rest ih =>
    unfold Writer.writeStringArray
    rcases hw : w.writeString s tag with ⟨w2, e⟩
    have h2 : w2.seq = w.seq := by
      have h3 := writeString_seq w s tag
      rw [hw] at h3
      exact h3
    cases e with
    | some e => exact h2
    | none =>
      dsimp only
      rw [ih w2, h2]

theorem writeOIDBytes_seq (w : Writer) (bytes : List Nat) (tag : Nat) :
    (w.writeOIDBytes bytes tag).1.seq = w.seq := by
  unfold Writer.writeOIDBytes
  rcases hw : ((w._ensure (2 + bytes.length)).writeByte tag).writeLength bytes.length
    with ⟨w2, e⟩
  have h2 : w2.seq = w.seq := by
    have h3 := writeLength_seq ((w._ensure (2 + bytes.length)).writeByte tag) bytes.length
    rw [hw] at h3
    rw [h3, writeByte_seq, ensure_seq]
  cases e with
  | some e => exact h2
  | none =>
    dsimp only
    rw [foldl_writeByte_seq, h2]

theorem writeOID_seq (w : Writer) (s : List Char) (tag : Nat) :
    (w.writeOID s tag).1.seq = w.seq := by
  unfold Writer.writeOID
  split
  · rfl
  · exact writeOIDBytes_seq w _ tag

theorem startSequence_seq (w : Writer) (tag : Nat) :
    (w.startSequence tag).seq = (w.writeByte tag).offset :: w.seq := by
  unfold Writer.startSequence
  rw [ensure_seq]
  simp [writeByte_seq]

theorem endSequence_seq_length (w : Writer) :
    (w.endSequence.1).seq.length = w.seq.length - 1 := by
  unfold Writer.endSequence
  rcases hseq : w.seq with _ | ⟨s, rest⟩
  · simp [hseq]
  · dsimp only
    split_ifs <;> simp [put_seq, shift_seq, hseq]

theorem applyWOp_seq_length (w : Writer) (op : WOp) :
    ((applyWOp w op).1).seq.length =
      match op with
      | .startSeq _ => w.seq.length + 1
      | .endSeq => w.seq.length - 1
      | _ => w.seq.length := by
  cases op with
  | wByte b => exact congrArg List.length (writeByte_seq w b)
  | wInt i tag => exact congrArg List.length (writeInt_seq w i tag)
  | wNull => exact congrArg List.length (writeNull_seq w)
  | wEnum i tag => exact congrArg List.length (writeInt_seq w i tag)
  | wBool b tag => exact congrArg List.length (writeBoolean_seq w b tag)
  | wString s tag => exact congrArg List.length (writeString_seq w s tag)
  | wBuffer data tag => exact congrArg List.length (writeBuffer_seq w data tag)
  | wStringArray ss tag => exact congrArg List.length (writeStringArray_seq w ss tag)
  | wOID s tag => exact congrArg List.length (writeOID_seq w s tag)
  | wLength len => exact congrArg List.length (writeLength_seq w len)
  | startSeq tag => simp [applyWOp, startSequence_seq]
  | endSeq => exact endSequence_seq_length w

/-- Net bracket count of an operation list: `startSequence` opens one,
`endSequence` closes one (a close on an empty stack is a no-op that throws). -/
def stackStep (n : Nat) (op : WOp) : Nat :=
  match op with
  | .startSeq _ => n + 1
  | .endSeq => n - 1
  | _ => n

theorem runOps_seq_length (ops : List WOp) (w : Writer) :
    (runOps w ops).seq.length = ops.foldl stackStep w.seq.length := by
  induction ops generalizing w with
  | nil => rfl
  | cons op rest ih =>
    unfold runOps at ih ⊢
    rw [List.foldl_cons, List.foldl_cons, ih]
    congr 1
    rw [applyWOp_seq_length]
    cases op <;> rfl

/-- C8: the Writer's `buffer` accessor fails with the malformed-encoding
error kind precisely when the pending-sequence stack is non-empty, i.e. when
the operations performed so far contain a `startSequence` without a matching
`endSequence`; otherwise it returns exactly the committed bytes `[0, offset)`. -/
theorem C8_buffer_accessor (size g : Nat) (ops : List WOp) :
    (ops.foldl stackStep 0 ≠ 0 →
      (runOps (Writer.new size g) ops).buffer =
        .error (.invalidAsn1
          (toString (runOps (Writer.new size g) ops).seq.length ++ " unended sequence(s)"))) ∧
    (ops.foldl stackStep 0 = 0 →
      (runOps (Writer.new size g) ops).buffer = .ok (runOps (Writer.new size g) ops).outBytes) := by
  have hlen : (runOps (Writer.new size g) ops).seq.length = ops.foldl stackStep 0 :=
    runOps_seq_length ops (Writer.new size g)
  constructor
  · intro hne
    unfold Writer.buffer
    rw [if_pos (by rw [hlen]; exact hne)]
  · intro heq
    unfold Writer.buffer
    rw [if_neg (by rw [hlen, heq]; simp)]

/-- Witness for C8: a single unended `startSequence` makes the accessor fail
with the malformed-encoding kind. -/
theorem C8_buffer_accessor_witness :
    (runOps (Writer.new 4 8) [.startSeq 0x30]).buffer =
      .error (.invalidAsn1
        (toString (runOps (Writer.new 4 8) [.startSeq 0x30]).seq.length ++
          " unended sequence(s)")) :=
  (C8_buffer_accessor 4 8 [.startSeq 0x30]).1 (by decide)

/-!  ## Integer encoding and decoding (claim C1)  -/

theorem intBytesLE_ne_nil (i : Int) : intBytesLE i ≠ [] := by
  rw [intBytesLE_eq]
  split <;> simp

theorem intBytesLE_mem_lt_aux :
    ∀ n : Nat, ∀ i : Int, i.natAbs ≤ n → ∀ b ∈ intBytesLE i, b < 256 := by
  intro n
  induction n using Nat.strong_induction_on with
  | _ n ih =>
    intro i hn b hb
    have e1 : 0 ≤ i.emod 256 := Int.emod_nonneg i (by norm_num)
    have e2 : i.emod 256 < 256 := Int.emod_lt_of_pos i (by norm_num)
    rw [intBytesLE_eq] at hb
    split at hb
    · simp only [List.mem_singleton] at hb
      omega
    · rename_i hc
      rcases List.mem_cons.mp hb with h | h
      · omega
      · have hd := natAbs_fdiv_lt i hc
        exact ih ((i.fdiv 256).natAbs) (by omega) _ le_rfl b h

theorem intBytesLE_mem_lt (i : Int) : ∀ b ∈ intBytesLE i, b < 256 :=
  intBytesLE_mem_lt_aux i.natAbs i le_rfl

theorem decodeBE_singleton (b : Nat) : decodeBE [b] = sint8 b := by
  unfold decodeBE
  simp

theorem decodeBE_append (xs : List Nat) (b : Nat) (h : xs ≠ []) :
    decodeBE (xs ++ [b]) = decodeBE xs * 256 + (b : Int) := by
  rcases xs with _ | ⟨x, xs⟩
  · exact absurd rfl h
  · unfold decodeBE
    simp [List.foldl_append]

theorem emod_eq_mod (a b : Int) : a.emod b = a % b := rfl

theorem sint8_emod (i : Int) (h1 : -128 ≤ i) (h2 : i < 128) :
    sint8 (i.emod 256).toNat = i := by
  have e1 : 0 ≤ i % 256 := Int.emod_nonneg i (by norm_num)
  have e2 : i % 256 < 256 := Int.emod_lt_of_pos i (by norm_num)
  have e3 : 256 * (i / 256) + i % 256 = i := Int.ediv_add_emod i 256
  unfold sint8
  rw [emod_eq_mod]
  split <;> omega

theorem decodeBE_intBytesLE_aux :
    ∀ n : Nat, ∀ i : Int, i.natAbs ≤ n → decodeBE ((intBytesLE i).reverse) = i := by
  intro n
  induction n using Nat.strong_induction_on with
  | _ n ih =>
    intro i hn
    rw [intBytesLE_eq]
    split
    · rename_i hc
      simp only [List.reverse_cons, List.reverse_nil, List.nil_append]
      rw [decodeBE_singleton]
      exact sint8_emod i hc.1 hc.2
    · rename_i hc
      simp only [List.reverse_cons]
      rw [decodeBE_append _ _ (by simp [intBytesLE_ne_nil])]
      have hd := natAbs_fdiv_lt i hc
      rw [ih ((i.fdiv 256).natAbs) (by omega) _ le_rfl]
      have e3 : 256 * (i / 256) + i % 256 = i := Int.ediv_add_emod i 256
      have hfd := Int.fdiv_eq_ediv i (show (0 : Int) ≤ 256 by norm_num)
      have e1 : 0 ≤ i % 256 := Int.emod_nonneg i (by norm_num)
      have e2 : i % 256 < 256 := Int.emod_lt_of_pos i (by norm_num)
      rw [hfd, emod_eq_mod]
      omega

/-- Decoding the bytes of `writeInt` (most-significant first) recovers the
written integer. -/
theorem decodeBE_intBytes (i : Int) : decodeBE ((intBytesLE i).reverse) = i :=
  decodeBE_intBytesLE_aux i.natAbs i le_rfl

/-- `writeInt` uses the minimal number of two's-complement bytes: any width
`k + 1` that can represent `i` is at least the emitted width. -/
theorem intBytesLE_length_le :
    ∀ k : Nat, ∀ i : Int, -(2 ^ (8 * k + 7)) ≤ i → i < 2 ^ (8 * k + 7) →
      (intBytesLE i).length ≤ k + 1 := by
  intro k
  induction k with
  | zero =>
    intro i h1 h2
    norm_num at h1 h2
    rw [intBytesLE_eq, if_pos ⟨by omega, by omega⟩]
    simp
  | succ k ih =>
    intro i h1 h2
    rw [intBytesLE_eq]
    split
    · simp
    · rename_i hc
      simp only [List.length_cons]
      have hPP : (2 : Int) ^ (8 * (k + 1) + 7) = 256 * 2 ^ (8 * k + 7) := by
        rw [show 8 * (k + 1) + 7 = (8 * k + 7) + 8 by ring, pow_add]
        ring
      have e3 : 256 * (i / 256) + i % 256 = i := Int.ediv_add_emod i 256
      have hfd := Int.fdiv_eq_ediv i (show (0 : Int) ≤ 256 by norm_num)
      have e1 : 0 ≤ i % 256 := Int.emod_nonneg i (by norm_num)
      have e2 : i % 256 < 256 := Int.emod_lt_of_pos i (by norm_num)
      have hP : (0 : Int) < 2 ^ (8 * k + 7) := by positivity
      have hb1 : -(2 ^ (8 * k + 7)) ≤ i.fdiv 256 := by rw [hfd]; omega
      have hb2 : i.fdiv 256 < 2 ^ (8 * k + 7) := by rw [hfd]; omega
      have := ih (i.fdiv 256) hb1 hb2
      omega

/-- `writeInt` appends the tag byte, the payload length as one octet, and the
payload bytes most-significant first. -/
theorem writeInt_emits (w : Writer) (i : Int) (tag : Nat) (h : WInv w) :
    Emits w (w.writeInt i tag)
      (tag % 256 :: (intBytesLE i).length % 256 :: (intBytesLE i).reverse.map (· % 256)) := by
  unfold Writer.writeInt
  dsimp only
  have hinv1 := ensure_inv w (2 + (intBytesLE i).length) h
  have hro := ensure_room w (2 + (intBytesLE i).length) h
  have hof := ensure_offset w (2 + (intBytesLE i).length)
  have e0 : Emits w (w._ensure (2 + (intBytesLE i).length)) [] :=
    ⟨by simpa using ensure_outBytes w _ h, by simpa using hof, ensure_seq _ _,
      ensure_growthFactor _ _, hinv1⟩
  have htotal :
      (intBytesLE i).reverse.foldl Writer.putAppend
        (((w._ensure (2 + (intBytesLE i).length)).putAppend tag).putAppend
          (intBytesLE i).length) =
      (tag :: (intBytesLE i).length :: (intBytesLE i).reverse).foldl Writer.putAppend
        (w._ensure (2 + (intBytesLE i).length)) := rfl
  rw [htotal]
  have hfold := (foldl_putAppend_emits
    (tag :: (intBytesLE i).length :: (intBytesLE i).reverse)
    (w._ensure (2 + (intBytesLE i).length)) hinv1
    (by simp only [List.length_cons, List.length_reverse]; omega)).1
  have := e0.trans hfold
  simpa using this

/-- Short-form branch of `readLength`: one octet with the top bit clear is the
length itself, the returned offset is just past it. -/
theorem readLength_short (r : Reader) (off : Nat) (hoff : off < r.size)
    (hb : r.buf.getD off 0 % 256 < 128) :
    r.readLength off =
      .ok (some ({ r with len := r.buf.getD off 0 % 256 }, off + 1)) := by
  unfold Reader.readLength
  rw [if_neg (by omega)]
  dsimp only
  rw [if_neg (by omega)]

/-- Indefinite-length branch of `readLength`: a long-form count octet with
count 0 throws the malformed-encoding error. -/
theorem readLength_indefinite (r : Reader) (off : Nat) (hoff : off < r.size)
    (hb : r.buf.getD off 0 % 256 = 128) :
    r.readLength off = .error (.invalidAsn1 "Indefinite length not supported") := by
  unfold Reader.readLength
  rw [if_neg (by omega)]
  dsimp only
  rw [hb, if_pos (by norm_num), if_pos (by norm_num)]

/-- Long-form branch of `readLength` with count `n'` (any count 1..127 is
accepted; the historical `> 4` rejection is commented out in the source): the
following `n'` octets are accumulated big-endian. -/
theorem readLength_long (r : Reader) (off n' : Nat) (hoff : off < r.size)
    (hb : r.buf.getD off 0 % 256 = 128 + n') (hn : 1 ≤ n') (hn2 : n' ≤ 127)
    (hav : n' ≤ r.size - (off + 1)) :
    r.readLength off =
      .ok (some ({ r with len := jsLenAcc ((r.buf.drop (off + 1)).take n') }, off + 1 + n')) := by
  unfold Reader.readLength
  rw [if_neg (by omega)]
  dsimp only
  rw [hb, if_pos (by omega)]
  have hm : (128 + n') % 128 = n' := by omega
  rw [hm, if_neg (by omega), if_neg (by omega)]

/-- Truncation branches of `readLength`: missing count octet, or missing
long-form octets, give the "no data" sentinel. -/
theorem readLength_noData (r : Reader) (off : Nat) :
    (off ≥ r.size → r.readLength off = .ok none) ∧
    (∀ n' : Nat, off < r.size → r.buf.getD off 0 % 256 = 128 + n' → 1 ≤ n' → n' ≤ 127 →
      r.size - (off + 1) < n' → r.readLength off = .ok none) := by
  constructor
  · intro hoff
    unfold Reader.readLength
    rw [if_pos hoff]
  · intro n' hoff hb hn hn2 hav
    unfold Reader.readLength
    rw [if_neg (by omega)]
    dsimp only
    rw [hb, if_pos (by omega)]
    have hm : (128 + n') % 128 = n' := by omega
    rw [hm, if_neg (by omega), if_pos (by omega)]

/-- Evaluation of `readInt()` on a well-formed short-form integer TLV. -/
theorem readInt_short_form (tagB n : Nat) (payload : List Nat)
    (htag : tagB < 256) (hn1 : 1 ≤ n) (hn2 : n < 128) (hlen : payload.length = n)
    (hsafe : (decodeBE payload).natAbs < 2 ^ 53) :
    (Reader.new (tagB :: n :: payload)).readInt none =
      .ok (decodeBE payload) ⟨tagB :: n :: payload, n, 2 + n⟩ := by
  have hsize : (Reader.new (tagB :: n :: payload)).size = 2 + n := by
    show (tagB :: n :: payload).length = 2 + n
    simp only [List.length_cons, hlen]
    omega
  have hoff : (Reader.new (tagB :: n :: payload)).offset = 0 := rfl
  have hpeek : (Reader.new (tagB :: n :: payload)).peek =
      .ok tagB (Reader.new (tagB :: n :: payload)) := by
    unfold Reader.peek Reader.readByte
    rw [if_neg (by rw [hsize, hoff]; omega)]
    simp [Reader.new, Nat.mod_eq_of_lt htag]
  have hgd : (Reader.new (tagB :: n :: payload)).buf.getD
      ((Reader.new (tagB :: n :: payload)).offset + 1) 0 = n := rfl
  have hrl := readLength_short (Reader.new (tagB :: n :: payload))
    ((Reader.new (tagB :: n :: payload)).offset + 1)
    (by rw [hsize]; show 0 + 1 < 2 + n; omega)
    (by rw [hgd]; omega)
  rw [hgd, Nat.mod_eq_of_lt (by omega)] at hrl
  unfold Reader.readInt Reader._readTag
  rw [hpeek]
  dsimp only
  unfold Reader.readTagBody
  rw [hrl]
  dsimp only
  rw [if_neg (show ¬(n = 0) by omega)]
  have hsz3 : Reader.size ⟨(Reader.new (tagB :: n :: payload)).buf, n,
      (Reader.new (tagB :: n :: payload)).offset⟩ = 2 + n := by
    show (tagB :: n :: payload).length = 2 + n
    simp only [List.length_cons, hlen]
    omega
  rw [if_neg (by rw [hsz3, hoff]; omega)]
  have hsl : (((Reader.new (tagB :: n :: payload)).buf).drop
      ((Reader.new (tagB :: n :: payload)).offset + 1 + 1)).take n = payload := by
    show ((tagB :: n :: payload).drop (0 + 1 + 1)).take n = payload
    rw [show (tagB :: n :: payload).drop (0 + 1 + 1) = payload from rfl]
    exact List.take_of_length_le (le_of_eq hlen)
  rw [hsl]
  rw [if_neg (show ¬(2 ^ 53 ≤ (decodeBE payload).natAbs) by omega)]
  simp only [RRes.ok.injEq, Reader.mk.injEq, true_and, and_true]
  refine ⟨rfl, ?_⟩
  show (Reader.new (tagB :: n :: payload)).offset + 1 + 1 + n = 2 + n
  rw [hoff]

/-- C1: for every integer in the host safe-integer range, `readInt` applied
to a fresh Writer's `writeInt` output returns the integer; the payload is the
minimal two's-complement width (any representable width bounds the emitted
total length), and the boundary values -1, 127, 128, -129 produce exactly the
documented encodings. -/
theorem C1_writeInt_readInt_roundtrip (i : Int) (h : i.natAbs ≤ 2 ^ 53 - 1) :
    ((Reader.new (Writer.fresh.writeInt i ASN1.Integer).outBytes).readInt none).val? =
      some i ∧
    (∀ m : Nat, 1 ≤ m → -(2 ^ (8 * m - 1) : Int) ≤ i → i < 2 ^ (8 * m - 1) →
      (Writer.fresh.writeInt i ASN1.Integer).outBytes.length ≤ 2 + m) ∧
    (Writer.fresh.writeInt (-1) ASN1.Integer).outBytes = [0x02, 1, 0xff] ∧
    (Writer.fresh.writeInt 127 ASN1.Integer).outBytes = [0x02, 1, 0x7f] ∧
    (Writer.fresh.writeInt 128 ASN1.Integer).outBytes = [0x02, 2, 0x00, 0x80] ∧
    (Writer.fresh.writeInt (-129) ASN1.Integer).outBytes = [0x02, 2, 0xff, 0x7f] := by
  have hinvF : WInv Writer.fresh := ⟨by decide, by decide⟩
  have hem := writeInt_emits Writer.fresh i ASN1.Integer hinvF
  have hne : 1 ≤ (intBytesLE i).length := by
    have := intBytesLE_ne_nil i
    cases hq : intBytesLE i with
    | nil => exact absurd hq this
    | cons a l => simp
  have h53 : i.natAbs ≤ 9007199254740991 := by
    have : (2 : Nat) ^ 53 - 1 = 9007199254740991 := by norm_num
    omega
  have hlen7 : (intBytesLE i).length ≤ 7 := by
    refine intBytesLE_length_le 6 i ?_ ?_ <;> (norm_num; omega)
  have hmap : (intBytesLE i).reverse.map (· % 256) = (intBytesLE i).reverse := by
    rw [List.map_congr_left (g := id) ?_, List.map_id]
    intro b hb
    exact Nat.mod_eq_of_lt (intBytesLE_mem_lt i b (List.mem_reverse.mp hb))
  have hout : (Writer.fresh.writeInt i ASN1.Integer).outBytes =
      2 :: (intBytesLE i).length :: (intBytesLE i).reverse := by
    have h1 := hem.1
    rw [hmap] at h1
    rw [h1]
    rw [show Writer.fresh.outBytes = [] from rfl]
    rw [show ASN1.Integer % 256 = 2 from rfl,
      Nat.mod_eq_of_lt (show (intBytesLE i).length < 256 by omega)]
    rfl
  refine ⟨?_, ?_, by decide, by decide, by decide, by decide⟩
  · rw [hout]
    rw [readInt_short_form 2 (intBytesLE i).length ((intBytesLE i).reverse)
      (by norm_num) hne (by omega) (List.length_reverse _)
      (by rw [decodeBE_intBytes]; omega)]
    rw [decodeBE_intBytes]
    rfl
  · intro m hm h1 h2
    have heq : 8 * (m - 1) + 7 = 8 * m - 1 := by omega
    have := intBytesLE_length_le (m - 1) i (by rw [heq]; exact h1) (by rw [heq]; exact h2)
    rw [hout]
    simp only [List.length_cons, List.length_reverse]
    omega

/-- Witness for C1 at the concrete safe integer 300. -/
theorem C1_writeInt_readInt_roundtrip_witness :
    ((Reader.new (Writer.fresh.writeInt 300 ASN1.Integer).outBytes).readInt none).val? =
      some 300 :=
  (C1_writeInt_readInt_roundtrip 300 (by norm_num)).1

/-!  ## Length-field decoding (claim C3)  -/

/-- `jsRound` is the identity below `2^53`. -/
theorem jsRound_small (n : Nat) (h : n < 2 ^ 53) : jsRound n = n := by
  unfold jsRound
  rw [if_pos h]

theorem jsLenAcc_exact_aux : ∀ l : List Nat, ∀ a : Nat,
    (a + 1) * 2 ^ (8 * l.length) ≤ 2 ^ 53 →
    l.foldl (fun x b => jsRound (x * 256 + b % 256)) a =
      l.foldl (fun x b => x * 256 + b % 256) a := by
  intro l
  induction l with
  | nil => intro a _; rfl
  | cons b l ih =>
    intro a h
    rw [show (b :: l).length = l.length + 1 from rfl,
      show 8 * (l.length + 1) = 8 * l.length + 8 from by ring, pow_add] at h
    have hb : b % 256 < 256 := Nat.mod_lt _ (by norm_num)
    have hstep : a * 256 + b % 256 + 1 ≤ (a + 1) * 256 := by omega
    have h2 : (a * 256 + b % 256 + 1) * 2 ^ (8 * l.length) ≤ 2 ^ 53 := by
      calc (a * 256 + b % 256 + 1) * 2 ^ (8 * l.length)
          ≤ (a + 1) * 256 * 2 ^ (8 * l.length) := Nat.mul_le_mul_right _ hstep
        _ = (a + 1) * (2 ^ (8 * l.length) * 2 ^ 8) := by ring
        _ ≤ 2 ^ 53 := h
    have hone : 1 ≤ 2 ^ (8 * l.length) := Nat.one_le_two_pow
    have hx : (a * 256 + b % 256 + 1) * 1 ≤ (a * 256 + b % 256 + 1) * 2 ^ (8 * l.length) :=
      Nat.mul_le_mul_left _ hone
    have hsmall : a * 256 + b % 256 < 2 ^ 53 := by omega
    rw [List.foldl_cons, List.foldl_cons, jsRound_small _ hsmall]
    exact ih (a * 256 + b % 256) h2

/-- For at most six octets the float accumulation is exact. -/
theorem jsLenAcc_eq_beNat (octets : List Nat) (h : octets.length ≤ 6) :
    jsLenAcc octets = beNat octets := by
  unfold jsLenAcc beNat
  apply jsLenAcc_exact_aux
  have h1 : (2 : Nat) ^ (8 * octets.length) ≤ 2 ^ 48 :=
    Nat.pow_le_pow_right (by norm_num) (by omega)
  have h2 : (2 : Nat) ^ 48 ≤ 2 ^ 53 := by norm_num
  omega

/-- C3 (corrected): `readLength` accepts the short form (one octet with the
top bit clear), rejects a long-form count of 0 (indefinite length) with the
malformed-encoding error kind, and accepts the long form with any count
1..127 whose octets are available — the `count > 4` rejection present in
older versions is commented out in the source (node-net-snmp issue 172).
The accumulated long-form value is computed in JavaScript float arithmetic:
it equals the exact big-endian value for up to six octets, and rounds from
seven octets on (seven 0xFF octets decode to 2^56, not 2^56 - 1). -/
theorem C3_readLength_forms (r : Reader) (off : Nat) (hoff : off < r.size) :
    (r.buf.getD off 0 % 256 < 128 →
      r.readLength off = .ok (some ({ r with len := r.buf.getD off 0 % 256 }, off + 1))) ∧
    (r.buf.getD off 0 % 256 = 128 →
      r.readLength off = .error (.invalidAsn1 "Indefinite length not supported")) ∧
    (∀ n' : Nat, 1 ≤ n' → n' ≤ 127 → r.buf.getD off 0 % 256 = 128 + n' →
      n' ≤ r.size - (off + 1) →
      r.readLength off =
        .ok (some ({ r with len := jsLenAcc ((r.buf.drop (off + 1)).take n') },
          off + 1 + n'))) ∧
    (∀ octets : List Nat, octets.length ≤ 6 → jsLenAcc octets = beNat octets) ∧
    ((Reader.new (0x87 :: List.replicate 7 0xFF)).readLength 0 =
        .ok (some (⟨0x87 :: List.replicate 7 0xFF, 2 ^ 56, 0⟩, 8)) ∧
      beNat (List.replicate 7 0xFF) = 2 ^ 56 - 1) :=
  ⟨fun hb => readLength_short r off hoff hb,
    fun hb => readLength_indefinite r off hoff hb,
    fun n' hn hn2 hb hav => readLength_long r off n' hoff hb hn hn2 hav,
    fun o ho => jsLenAcc_eq_beNat o ho,
    by decide⟩

/-- Witness for C3 on a concrete two-octet long-form length field. -/
theorem C3_readLength_forms_witness :
    (Reader.new [0x82, 1, 0, 9]).readLength 0 =
      .ok (some ({ Reader.new [0x82, 1, 0, 9] with
        len := jsLenAcc (((Reader.new [0x82, 1, 0, 9]).buf.drop 1).take 2) }, 3)) :=
  (C3_readLength_forms (Reader.new [0x82, 1, 0, 9]) 0 (by decide)).2.2.1 2
    (by decide) (by decide) (by decide) (by decide)

/-- Counterexample to C3 as stated: a long-form count octet of 5 is decoded
as a perfectly valid length (here 1), contradicting "a long-form count n > 4
is never decoded as a valid length". -/
theorem C3_count5_counterexample :
    (Reader.new [0x85, 0, 0, 0, 0, 1]).readLength 0 =
      .ok (some (⟨[0x85, 0, 0, 0, 0, 1], 1, 0⟩, 6)) := by decide

/-!  ## The "no data" sentinel leaves the cursor alone (claim C10)  -/

/-- The reader returned inside a successful `readLength` differs from the
input only in the transient `len` field. -/
theorem readLength_state (r : Reader) (off : Nat) {r₂ : Reader} {o : Nat}
    (h : r.readLength off = .ok (some (r₂, o))) :
    r₂.buf = r.buf ∧ r₂.offset = r.offset := by
  unfold Reader.readLength at h
  split at h
  · simp at h
  · dsimp only at h
    split at h
    · split at h
      · simp at h
      · split at h
        · simp at h
        · simp only [Except.ok.injEq, Option.some.injEq, Prod.mk.injEq] at h
          obtain ⟨h1, h2⟩ := h
          rw [← h1]
          exact ⟨rfl, rfl⟩
    · simp only [Except.ok.injEq, Option.some.injEq, Prod.mk.injEq] at h
      obtain ⟨h1, h2⟩ := h
      rw [← h1]
      exact ⟨rfl, rfl⟩

theorem readByte_noData (r : Reader) (p : Bool) {r' : Reader}
    (h : r.readByte p = .noData r') : r'.offset = r.offset ∧ r'.buf = r.buf := by
  unfold Reader.readByte at h
  split at h
  · cases h
    exact ⟨rfl, rfl⟩
  · dsimp only at h
    split at h <;> cases h

theorem readTag_noData (r : Reader) (tag : Option Nat) {r' : Reader}
    (h : r._readTag tag = .noData r') : r'.offset = r.offset ∧ r'.buf = r.buf := by
  unfold Reader._readTag at h
  split at h
  · cases h
    exact ⟨rfl, rfl⟩
  · cases h
  · rename_i b req
    have hbody : ∀ hb : r.readTagBody = .noData r', r'.offset = r.offset ∧ r'.buf = r.buf := by
      intro hb
      unfold Reader.readTagBody at hb
      split at hb
      · cases hb
      · cases hb
        exact ⟨rfl, rfl⟩
      · rename_i r₂ o hrl
        split at hb
        · cases hb
        · split at hb
          · cases hb
            have := readLength_state r (r.offset + 1) hrl
            exact ⟨this.2, this.1⟩
          · dsimp only at hb
            split at hb <;> cases hb
    split at h
    · split at h
      · cases h
      · exact hbody h
    · exact hbody h

theorem readBuffer_noData (r : Reader) (tag : Nat) {r' : Reader}
    (h : r.readBuffer tag = .noData r') : r'.offset = r.offset ∧ r'.buf = r.buf := by
  unfold Reader.readBuffer at h
  split at h
  · cases h
    exact ⟨rfl, rfl⟩
  · cases h
  · split at h
    · cases h
    · split at h
      · cases h
      · cases h
        exact ⟨rfl, rfl⟩
      · rename_i r₂ o hrl
        split at h
        · cases h
          have := readLength_state r (r.offset + 1) hrl
          exact ⟨this.2, this.1⟩
        · cases h

theorem readSequence_noData (r : Reader) (tag : Option Nat) {r' : Reader}
    (h : r.readSequence tag = .noData r') : r'.offset = r.offset ∧ r'.buf = r.buf := by
  unfold Reader.readSequence at h
  split at h
  · cases h
    exact ⟨rfl, rfl⟩
  · cases h
  · dsimp only at h
    split at h
    · cases h
    · split at h
      · cases h
      · cases h
        exact ⟨rfl, rfl⟩
      · cases h

theorem readBitString_noData (r : Reader) (tag : Nat) {r' : Reader}
    (h : r.readBitString tag = .noData r') : r'.offset = r.offset ∧ r'.buf = r.buf := by
  unfold Reader.readBitString at h
  split at h
  · cases h
    exact ⟨rfl, rfl⟩
  · cases h
  · split at h
    · cases h
    · split at h
      · cases h
      · cases h
        exact ⟨rfl, rfl⟩
      · rename_i r₂ o hrl
        split at h
        · cases h
          have := readLength_state r (r.offset + 1) hrl
          exact ⟨this.2, this.1⟩
        · dsimp only at h
          split at h
          · cases h
          · cases h

theorem readOID_noData (r : Reader) (tag : Nat) {r' : Reader}
    (h : r.readOID tag = .noData r') : r'.offset = r.offset ∧ r'.buf = r.buf := by
  unfold Reader.readOID at h
  split at h
  · rename_i rs hs
    cases h
    exact readBuffer_noData r tag hs
  · cases h
  · split at h <;> cases h

/-- C10: whenever a Reader read operation returns the "no data" sentinel, the
reader's offset (and of course its buffer) is exactly what it was before the
call, so the caller can retry the same read once more data is available; only
the transient `length` property may have changed. -/
theorem C10_noData_preserves_offset (op : ROp) (r r' : Reader)
    (h : applyROp op r = .noData r') : r'.offset = r.offset ∧ r'.buf = r.buf := by
  cases op with
  | rByte p =>
    simp only [applyROp] at h
    rcases hb : r.readByte p with ⟨v, r1⟩ | r1 | ⟨e, r1⟩ <;> rw [hb] at h <;> cases h
    exact readByte_noData r p hb
  | rSeq t =>
    simp only [applyROp] at h
    rcases hb : r.readSequence t with ⟨v, r1⟩ | r1 | ⟨e, r1⟩ <;> rw [hb] at h <;> cases h
    exact readSequence_noData r t hb
  | rInt t =>
    simp only [applyROp, Reader.readInt] at h
    rcases hb : r._readTag t with ⟨v, r1⟩ | r1 | ⟨e, r1⟩ <;> rw [hb] at h <;> cases h
    exact readTag_noData r t hb
  | rEnum t =>
    simp only [applyROp, Reader.readEnumeration] at h
    rcases hb : r._readTag (some t) with ⟨v, r1⟩ | r1 | ⟨e, r1⟩ <;> rw [hb] at h <;> cases h
    exact readTag_noData r (some t) hb
  | rBoolean t =>
    simp only [applyROp, Reader.readBoolean] at h
    rcases hb : r._readTag (some t) with ⟨v, r1⟩ | r1 | ⟨e, r1⟩ <;> rw [hb] at h <;> cases h
  | rBuffer t =>
    simp only [applyROp] at h
    rcases hb : r.readBuffer t with ⟨v, r1⟩ | r1 | ⟨e, r1⟩ <;> rw [hb] at h <;> cases h
    exact readBuffer_noData r t hb
  | rString t =>
    simp only [applyROp, Reader.readString] at h
    rcases hb : r.readBuffer t with ⟨v, r1⟩ | r1 | ⟨e, r1⟩ <;> rw [hb] at h <;> cases h
    exact readBuffer_noData r t hb
  | rOID t =>
    simp only [applyROp] at h
    rcases hb : r.readOID t with ⟨v, r1⟩ | r1 | ⟨e, r1⟩ <;> rw [hb] at h <;> cases h
    exact readOID_noData r t hb
  | rBitString t =>
    simp only [applyROp] at h
    rcases hb : r.readBitString t with ⟨v, r1⟩ | r1 | ⟨e, r1⟩ <;> rw [hb] at h <;> cases h
    exact readBitString_noData r t hb

/-- Witness for C10: `readByte` on an empty reader signals "no data" with the
offset untouched. -/
theorem C10_noData_preserves_offset_witness :
    (Reader.new []).offset = (Reader.new []).offset ∧
    (Reader.new []).buf = (Reader.new []).buf :=
  C10_noData_preserves_offset (.rByte false) (Reader.new []) (Reader.new []) (by decide)

/-!  ## Truncated input gives the "no data" sentinel (claim C2)

The formal reading of "an operation that would need to read past the end of
the buffer": whenever the operation succeeds on a buffer, running it on any
strict prefix of the bytes it consumed yields the sentinel.  -/

theorem getD_take_eq {bs : List Nat} {k i : Nat} (h : i < k) :
    (bs.take k).getD i 0 = bs.getD i 0 := by
  simp [List.getD_eq_getElem?_getD, List.getElem?_take, h]

theorem size_new (bs : List Nat) : (Reader.new bs).size = bs.length := rfl

theorem size_new_take (bs : List Nat) (k : Nat) :
    (Reader.new (bs.take k)).size = min k bs.length := by
  show (bs.take k).length = min k bs.length
  simp [List.length_take]

/-- A successful `readLength` on the full buffer turns into the sentinel on
any prefix that cuts the length field short. -/
theorem readLength_take_lt (bs : List Nat) (off k : Nat) {r₂ : Reader} {o : Nat}
    (h : (Reader.new bs).readLength off = .ok (some (r₂, o))) (hk : k < o) :
    (Reader.new (bs.take k)).readLength off = .ok none := by
  have hsz := size_new bs
  have hszk := size_new_take bs k
  unfold Reader.readLength at h ⊢
  split at h
  · simp at h
  · rename_i hoff
    dsimp only at h
    by_cases hko : k ≤ off
    · rw [if_pos (by omega)]
    · rw [if_neg (by omega)]
      dsimp only
      have hgd : (Reader.new (bs.take k)).buf.getD off 0 =
          (Reader.new bs).buf.getD off 0 := getD_take_eq (by omega)
      rw [hgd]
      split at h
      · rename_i hb
        rw [if_pos hb]
        split at h
        · simp at h
        · rename_i hn0
          rw [if_neg hn0]
          split at h
          · simp at h
          · rename_i hav
            simp only [Except.ok.injEq, Option.some.injEq, Prod.mk.injEq] at h
            obtain ⟨-, ho⟩ := h
            rw [if_pos (by omega)]
      · rename_i hb
        simp only [Except.ok.injEq, Option.some.injEq, Prod.mk.injEq] at h
        obtain ⟨-, ho⟩ := h
        exact (by omega : False).elim

/-- A successful `readLength` on the full buffer gives the same length and
offset on any prefix that still contains the whole length field. -/
theorem readLength_take_ge (bs : List Nat) (off k : Nat) {r₂ : Reader} {o : Nat}
    (h : (Reader.new bs).readLength off = .ok (some (r₂, o))) (hk : o ≤ k) :
    (Reader.new (bs.take k)).readLength off = .ok (some (⟨bs.take k, r₂.len, 0⟩, o)) := by
  have hsz := size_new bs
  have hszk := size_new_take bs k
  unfold Reader.readLength at h ⊢
  split at h
  · simp at h
  · rename_i hoff
    dsimp only at h
    rw [if_neg (by
      intro hge
      have hx : off + 1 ≤ o := by
        split at h
        · split at h
          · simp at h
          · split at h
            · simp at h
            · simp only [Except.ok.injEq, Option.some.injEq, Prod.mk.injEq] at h
              omega
        · simp only [Except.ok.injEq, Option.some.injEq, Prod.mk.injEq] at h
          omega
      omega)]
    dsimp only
    have hgd : (Reader.new (bs.take k)).buf.getD off 0 =
        (Reader.new bs).buf.getD off 0 := getD_take_eq (by
      have hx : off + 1 ≤ o := by
        split at h
        · split at h
          · simp at h
          · split at h
            · simp at h
            · simp only [Except.ok.injEq, Option.some.injEq, Prod.mk.injEq] at h
              omega
        · simp only [Except.ok.injEq, Option.some.injEq, Prod.mk.injEq] at h
          omega
      omega)
    rw [hgd]
    split at h
    · rename_i hb
      rw [if_pos hb]
      split at h
      · simp at h
      · rename_i hn0
        rw [if_neg hn0]
        split at h
        · simp at h
        · rename_i hav
          simp only [Except.ok.injEq, Option.some.injEq, Prod.mk.injEq] at h
          obtain ⟨hr, ho⟩ := h
          rw [if_neg (by omega)]
          have hslice : ((Reader.new (bs.take k)).buf.drop (off + 1)).take
              ((Reader.new bs).buf.getD off 0 % 256 % 128) =
              ((Reader.new bs).buf.drop (off + 1)).take
              ((Reader.new bs).buf.getD off 0 % 256 % 128) := by
            show ((bs.take k).drop (off + 1)).take _ = (bs.drop (off + 1)).take _
            rw [List.drop_take]
            rw [List.take_take]
            congr 1
            omega
          rw [hslice]
          simp only [Except.ok.injEq, Option.some.injEq, Prod.mk.injEq]
          refine ⟨?_, by omega⟩
          rw [← hr]
          rfl
    · rename_i hb
      rw [if_neg hb]
      simp only [Except.ok.injEq, Option.some.injEq, Prod.mk.injEq] at h
      obtain ⟨hr, ho⟩ := h
      simp only [Except.ok.injEq, Option.some.injEq, Prod.mk.injEq]
      refine ⟨?_, by omega⟩
      rw [← hr]
      rfl

theorem peek_new_ok (bs : List Nat) {b : Nat} {r1 : Reader}
    (h : (Reader.new bs).peek = .ok b r1) :
    1 ≤ bs.length ∧ b = bs.getD 0 0 % 256 := by
  unfold Reader.peek Reader.readByte at h
  split at h
  · cases h
  · rename_i hc
    rw [if_pos rfl] at h
    cases h
    refine ⟨?_, rfl⟩
    rw [size_new] at hc
    have hoffz : (Reader.new bs).offset = 0 := rfl
    omega

theorem peek_take_ok (bs : List Nat) (k : Nat) (hk : 1 ≤ k) (h1 : 1 ≤ bs.length) :
    (Reader.new (bs.take k)).peek = .ok (bs.getD 0 0 % 256) (Reader.new (bs.take k)) := by
  unfold Reader.peek Reader.readByte
  rw [if_neg (by
    rw [size_new_take]
    have hoffz : (Reader.new (bs.take k)).offset = 0 := rfl
    omega)]
  dsimp only
  have hgd : (Reader.new (bs.take k)).buf.getD (Reader.new (bs.take k)).offset 0 =
      bs.getD 0 0 := getD_take_eq hk
  rw [hgd, if_pos rfl]

theorem readByte_take (bs : List Nat) (p : Bool) (k : Nat) {v : Nat} {r' : Reader}
    (h : (Reader.new bs).readByte p = .ok v r') (hk : k < r'.offset) :
    ∃ r'', (Reader.new (bs.take k)).readByte p = .noData r'' := by
  have hk0 : k = 0 := by
    unfold Reader.readByte at h
    split at h
    · cases h
    · dsimp only at h
      split at h <;> cases h
      · have hz : (Reader.new bs).offset = 0 := rfl
        omega
      · have hz : (Reader.mk (Reader.new bs).buf (Reader.new bs).len
            ((Reader.new bs).offset + 1)).offset = (Reader.new bs).offset + 1 := rfl
        have hz0 : (Reader.new bs).offset = 0 := rfl
        omega
  subst hk0
  refine ⟨Reader.new (bs.take 0), ?_⟩
  unfold Reader.readByte
  rw [if_pos (by rw [size_new_take]; omega)]

/-- The common header of `_readTag` via `readTagBody`: a success on the full
buffer turns into the sentinel on any strict prefix of the consumed bytes. -/
theorem readTagBody_take (bs : List Nat) (k : Nat) {v : Int} {r' : Reader}
    (h : (Reader.new bs).readTagBody = .ok v r') (hk : k < r'.offset) (hk1 : 1 ≤ k) :
    ∃ r'', (Reader.new (bs.take k)).readTagBody = .noData r'' := by
  unfold Reader.readTagBody at h ⊢
  have hoffeq : (Reader.new (bs.take k)).offset + 1 = (Reader.new bs).offset + 1 := rfl
  rw [hoffeq]
  rcases hrl : (Reader.new bs).readLength ((Reader.new bs).offset + 1) with e | ores <;>
    rw [hrl] at h
  · cases h
  · rcases ores with - | ⟨r₂, o⟩
    · cases h
    · dsimp only at h
      split at h
      · cases h
      · rename_i hL0
        split at h
        · cases h
        · rename_i hLav
          split at h
          · cases h
          · cases h
            have hst := readLength_state (Reader.new bs) ((Reader.new bs).offset + 1) hrl
            have hbuf : r₂.buf = bs := hst.1
            have hsz2 : r₂.size = bs.length := by
              show r₂.buf.length = bs.length
              rw [hbuf]
            have hkoff : (Reader.mk r₂.buf r₂.len (o + r₂.len)).offset = o + r₂.len := rfl
            have hob : o + r₂.len ≤ bs.length := by omega
            by_cases hko : k < o
            · rw [readLength_take_lt bs ((Reader.new bs).offset + 1) k hrl hko]
              exact ⟨_, rfl⟩
            · rw [readLength_take_ge bs ((Reader.new bs).offset + 1) k hrl (by omega)]
              dsimp only
              rw [if_neg hL0]
              rw [if_pos (by
                show r₂.len > Reader.size ⟨bs.take k, r₂.len, 0⟩ - o
                rw [show Reader.size ⟨bs.take k, r₂.len, 0⟩ = min k bs.length from
                  size_new_take bs k]
                omega)]
              exact ⟨_, rfl⟩

theorem readTag_take (bs : List Nat) (t : Option Nat) (k : Nat) {v : Int} {r' : Reader}
    (h : (Reader.new bs)._readTag t = .ok v r') (hk : k < r'.offset) :
    ∃ r'', (Reader.new (bs.take k))._readTag t = .noData r'' := by
  by_cases hk1 : 1 ≤ k
  case neg =>
    have hk0 : k = 0 := by omega
    subst hk0
    exact ⟨_, rfl⟩
  unfold Reader._readTag at h ⊢
  rcases hp : (Reader.new bs).peek with ⟨b, rp⟩ | rp | ⟨e, rp⟩ <;> rw [hp] at h
  rotate_left
  · cases h
  · cases h
  ·
    have hpk := peek_new_ok bs hp
    rw [peek_take_ok bs k hk1 hpk.1]
    dsimp only
    cases t with
    | none =>
      dsimp only at h ⊢
      exact readTagBody_take bs k h hk hk1
    | some tt =>
      dsimp only at h ⊢
      split at h
      · cases h
      · rename_i hbt
        rw [if_neg (by rw [← hpk.2]; exact hbt)]
        exact readTagBody_take bs k h hk hk1

theorem readLength_o_le (r : Reader) (off : Nat) {r₂ : Reader} {o : Nat}
    (h : r.readLength off = .ok (some (r₂, o))) : o ≤ r.size ∧ off < r.size := by
  unfold Reader.readLength at h
  split at h
  · simp at h
  · rename_i hoff
    dsimp only at h
    split at h
    · split at h
      · simp at h
      · split at h
        · simp at h
        · rename_i hav
          simp only [Except.ok.injEq, Option.some.injEq, Prod.mk.injEq] at h
          obtain ⟨-, ho⟩ := h
          constructor <;> omega
    · simp only [Except.ok.injEq, Option.some.injEq, Prod.mk.injEq] at h
      obtain ⟨-, ho⟩ := h
      constructor <;> omega

theorem readBuffer_take (bs : List Nat) (t : Nat) (k : Nat) {v : List Nat} {r' : Reader}
    (h : (Reader.new bs).readBuffer t = .ok v r') (hk : k < r'.offset) :
    ∃ r'', (Reader.new (bs.take k)).readBuffer t = .noData r'' := by
  by_cases hk1 : 1 ≤ k
  case neg =>
    have hk0 : k = 0 := by omega
    subst hk0
    exact ⟨_, rfl⟩
  unfold Reader.readBuffer at h ⊢
  have hoffeq : (Reader.new (bs.take k)).offset + 1 = (Reader.new bs).offset + 1 := rfl
  rcases hp : (Reader.new bs).peek with ⟨b, rp⟩ | rp | ⟨e, rp⟩ <;> rw [hp] at h
  rotate_left
  · cases h
  · cases h
  · have hpk := peek_new_ok bs hp
    rw [peek_take_ok bs k hk1 hpk.1, hoffeq]
    dsimp only at h ⊢
    split at h
    · cases h
    · rename_i hbt
      rw [if_neg (by rw [← hpk.2]; exact hbt)]
      rcases hrl : (Reader.new bs).readLength ((Reader.new bs).offset + 1) with e | ores <;>
        rw [hrl] at h
      · cases h
      · rcases ores with - | ⟨r₂, o⟩
        · cases h
        · dsimp only at h
          split at h
          · cases h
          · rename_i hLav
            cases h
            have hst := readLength_state (Reader.new bs) ((Reader.new bs).offset + 1) hrl
            have hbuf : r₂.buf = bs := hst.1
            have hsz2 : r₂.size = bs.length := by
              show r₂.buf.length = bs.length
              rw [hbuf]
            have hol := readLength_o_le (Reader.new bs) ((Reader.new bs).offset + 1) hrl
            have hszn : (Reader.new bs).size = bs.length := rfl
            have hkoff : (Reader.mk r₂.buf r₂.len (o + r₂.len)).offset = o + r₂.len := rfl
            have hob : o + r₂.len ≤ bs.length := by omega
            by_cases hko : k < o
            · rw [readLength_take_lt bs ((Reader.new bs).offset + 1) k hrl hko]
              exact ⟨_, rfl⟩
            · rw [readLength_take_ge bs ((Reader.new bs).offset + 1) k hrl (by omega)]
              dsimp only
              rw [if_pos (by
                show r₂.len > Reader.size ⟨bs.take k, r₂.len, 0⟩ - o
                rw [show Reader.size ⟨bs.take k, r₂.len, 0⟩ = min k bs.length from
                  size_new_take bs k]
                omega)]
              exact ⟨_, rfl⟩

theorem readSequence_take (bs : List Nat) (t : Option Nat) (k : Nat) {v : Nat} {r' : Reader}
    (h : (Reader.new bs).readSequence t = .ok v r') (hk : k < r'.offset) :
    ∃ r'', (Reader.new (bs.take k)).readSequence t = .noData r'' := by
  by_cases hk1 : 1 ≤ k
  case neg =>
    have hk0 : k = 0 := by omega
    subst hk0
    exact ⟨_, rfl⟩
  unfold Reader.readSequence at h ⊢
  have hoffeq : (Reader.new (bs.take k)).offset + 1 = (Reader.new bs).offset + 1 := rfl
  rcases hp : (Reader.new bs).peek with ⟨b, rp⟩ | rp | ⟨e, rp⟩ <;> rw [hp] at h
  rotate_left
  · cases h
  · cases h
  · have hpk := peek_new_ok bs hp
    rw [peek_take_ok bs k hk1 hpk.1, hoffeq]
    dsimp only at h ⊢
    rcases t with - | tt
    · dsimp only at h ⊢
      rcases hrl : (Reader.new bs).readLength ((Reader.new bs).offset + 1) with e | ores <;>
        rw [hrl] at h
      · cases h
      · rcases ores with - | ⟨r₂, o⟩
        · cases h
        · cases h
          have hko : k < o := by
            have hz : (Reader.mk r₂.buf r₂.len o).offset = o := rfl
            omega
          rw [readLength_take_lt bs ((Reader.new bs).offset + 1) k hrl hko]
          exact ⟨_, rfl⟩
    · dsimp only at h ⊢
      split at h
      · cases h
      · rename_i hbt
        have htb : ¬(tt ≠ b) := by
          by_contra hcon
          rw [if_pos hcon] at hbt
          cases hbt
        rw [← hpk.2, if_neg htb]
        dsimp only
        rcases hrl : (Reader.new bs).readLength ((Reader.new bs).offset + 1) with e | ores <;>
          rw [hrl] at h
        · cases h
        · rcases ores with - | ⟨r₂, o⟩
          · cases h
          · cases h
            have hko : k < o := by
              have hz : (Reader.mk r₂.buf r₂.len o).offset = o := rfl
              omega
            rw [readLength_take_lt bs ((Reader.new bs).offset + 1) k hrl hko]
            exact ⟨_, rfl⟩

theorem readBitString_take (bs : List Nat) (t : Nat) (k : Nat) {v : List Char} {r' : Reader}
    (h : (Reader.new bs).readBitString t = .ok v r') (hk : k < r'.offset) :
    ∃ r'', (Reader.new (bs.take k)).readBitString t = .noData r'' := by
  by_cases hk1 : 1 ≤ k
  case neg =>
    have hk0 : k = 0 := by omega
    subst hk0
    exact ⟨_, rfl⟩
  unfold Reader.readBitString at h ⊢
  have hoffeq : (Reader.new (bs.take k)).offset + 1 = (Reader.new bs).offset + 1 := rfl
  rcases hp : (Reader.new bs).peek with ⟨b, rp⟩ | rp | ⟨e, rp⟩ <;> rw [hp] at h
  rotate_left
  · cases h
  · cases h
  · have hpk := peek_new_ok bs hp
    rw [peek_take_ok bs k hk1 hpk.1, hoffeq]
    dsimp only at h ⊢
    split at h
    · cases h
    · rename_i hbt
      rw [if_neg (by rw [← hpk.2]; exact hbt)]
      rcases hrl : (Reader.new bs).readLength ((Reader.new bs).offset + 1) with e | ores <;>
        rw [hrl] at h
      · cases h
      · rcases ores with - | ⟨r₂, o⟩
        · cases h
        · dsimp only at h
          split at h
          · cases h
          · rename_i hLav
            have hst := readLength_state (Reader.new bs) ((Reader.new bs).offset + 1) hrl
            have hbuf : r₂.buf = bs := hst.1
            have hsz2 : r₂.size = bs.length := by
              show r₂.buf.length = bs.length
              rw [hbuf]
            have hol := readLength_o_le (Reader.new bs) ((Reader.new bs).offset + 1) hrl
            have hszn : (Reader.new bs).size = bs.length := rfl
            have hob : o + r₂.len ≤ bs.length := by omega
            split at h
            · cases h
              have hko : k < o := by
                have hz : (Reader.mk r₂.buf r₂.len o).offset = o := rfl
                omega
              rw [readLength_take_lt bs ((Reader.new bs).offset + 1) k hrl hko]
              exact ⟨_, rfl⟩
            · cases h
              have hkv : k < o + r₂.len := by
                have hz : (Reader.mk r₂.buf r₂.len (o + r₂.len)).offset = o + r₂.len := rfl
                omega
              by_cases hko : k < o
              · rw [readLength_take_lt bs ((Reader.new bs).offset + 1) k hrl hko]
                exact ⟨_, rfl⟩
              · rw [readLength_take_ge bs ((Reader.new bs).offset + 1) k hrl (by omega)]
                dsimp only
                rw [if_pos (by
                  show r₂.len > Reader.size ⟨bs.take k, r₂.len, 0⟩ - o
                  rw [show Reader.size ⟨bs.take k, r₂.len, 0⟩ = min k bs.length from
                    size_new_take bs k]
                  omega)]
                exact ⟨_, rfl⟩


theorem readOID_take (bs : List Nat) (t : Nat) (k : Nat) {v : List Char} {r' : Reader}
    (h : (Reader.new bs).readOID t = .ok v r') (hk : k < r'.offset) :
    ∃ r'', (Reader.new (bs.take k)).readOID t = .noData r'' := by
  unfold Reader.readOID Reader.readString at h ⊢
  rcases hb : (Reader.new bs).readBuffer t with ⟨bb, rb⟩ | rb | ⟨e, rb⟩ <;> rw [hb] at h
  rotate_left
  · cases h
  · cases h
  · have hr' : r' = rb := by
      dsimp only at h
      split at h <;> cases h <;> rfl
    subst hr'
    obtain ⟨r'', hr''⟩ := readBuffer_take bs t k hb hk
    rw [hr'']
    exact ⟨r'', rfl⟩

theorem readBoolean_take (bs : List Nat) (t : Nat) (k : Nat) {b : Bool} {r' : Reader}
    (h : (Reader.new bs).readBoolean t = .ok b r') (hk : k < r'.offset) :
    ∃ r'', (Reader.new (bs.take k)).readBoolean t = .ok true r'' := by
  unfold Reader.readBoolean at h ⊢
  rcases ht : (Reader.new bs)._readTag (some t) with ⟨v, rt⟩ | rt | ⟨e, rt⟩ <;> rw [ht] at h
  rotate_left
  · cases h
    have hno := readTag_noData (Reader.new bs) (some t) ht
    have hz : (Reader.new bs).offset = 0 := rfl
    exact (by omega : False).elim
  · cases h
  · cases h
    obtain ⟨r'', hr''⟩ := readTag_take bs (some t) k ht hk
    rw [hr'']
    exact ⟨r'', rfl⟩

/-- C2 (amended): every Reader read operation that would need to read past
the end of the input buffer — formally, running an operation on a strict
prefix of the bytes a successful run consumed — returns the "no data"
sentinel, not an exception and not an ordinary decoded value, with one
exception the claim misses: `readBoolean` converts the sentinel through
`!== 0` and returns the ordinary value `true` instead. -/
theorem C2_truncation_sentinel :
    (∀ op : ROp, op.isBool = false → ∀ bs : List Nat, ∀ k : Nat, ∀ r' : Reader,
      applyROp op (Reader.new bs) = .ok () r' → k < r'.offset →
      ∃ r'', applyROp op (Reader.new (bs.take k)) = .noData r'') ∧
    (∀ t : Nat, ∀ bs : List Nat, ∀ k : Nat, ∀ b : Bool, ∀ r' : Reader,
      (Reader.new bs).readBoolean t = .ok b r' → k < r'.offset →
      ∃ r'', (Reader.new (bs.take k)).readBoolean t = .ok true r'') := by
  constructor
  · intro op hnb bs k r' h hk
    cases op with
    | rByte p =>
      simp only [applyROp] at h ⊢
      rcases hb : (Reader.new bs).readByte p with ⟨v, rb⟩ | rb | ⟨e, rb⟩ <;>
        rw [hb] at h <;> cases h
      obtain ⟨r'', hr''⟩ := readByte_take bs p k hb hk
      rw [hr'']
      exact ⟨r'', rfl⟩
    | rSeq t =>
      simp only [applyROp] at h ⊢
      rcases hb : (Reader.new bs).readSequence t with ⟨v, rb⟩ | rb | ⟨e, rb⟩ <;>
        rw [hb] at h <;> cases h
      obtain ⟨r'', hr''⟩ := readSequence_take bs t k hb hk
      rw [hr'']
      exact ⟨r'', rfl⟩
    | rInt t =>
      simp only [applyROp, Reader.readInt] at h ⊢
      rcases hb : (Reader.new bs)._readTag t with ⟨v, rb⟩ | rb | ⟨e, rb⟩ <;>
        rw [hb] at h <;> cases h
      obtain ⟨r'', hr''⟩ := readTag_take bs t k hb hk
      rw [hr'']
      exact ⟨r'', rfl⟩
    | rEnum t =>
      simp only [applyROp, Reader.readEnumeration] at h ⊢
      rcases hb : (Reader.new bs)._readTag (some t) with ⟨v, rb⟩ | rb | ⟨e, rb⟩ <;>
        rw [hb] at h <;> cases h
      obtain ⟨r'', hr''⟩ := readTag_take bs (some t) k hb hk
      rw [hr'']
      exact ⟨r'', rfl⟩
    | rBoolean t => cases hnb
    | rBuffer t =>
      simp only [applyROp] at h ⊢
      rcases hb : (Reader.new bs).readBuffer t with ⟨v, rb⟩ | rb | ⟨e, rb⟩ <;>
        rw [hb] at h <;> cases h
      obtain ⟨r'', hr''⟩ := readBuffer_take bs t k hb hk
      rw [hr'']
      exact ⟨r'', rfl⟩
    | rString t =>
      simp only [applyROp, Reader.readString] at h ⊢
      rcases hb : (Reader.new bs).readBuffer t with ⟨v, rb⟩ | rb | ⟨e, rb⟩ <;>
        rw [hb] at h <;> cases h
      obtain ⟨r'', hr''⟩ := readBuffer_take bs t k hb hk
      rw [hr'']
      exact ⟨r'', rfl⟩
    | rOID t =>
      simp only [applyROp] at h ⊢
      rcases hb : (Reader.new bs).readOID t with ⟨v, rb⟩ | rb | ⟨e, rb⟩ <;>
        rw [hb] at h <;> cases h
      obtain ⟨r'', hr''⟩ := readOID_take bs t k hb hk
      rw [hr'']
      exact ⟨r'', rfl⟩
    | rBitString t =>
      simp only [applyROp] at h ⊢
      rcases hb : (Reader.new bs).readBitString t with ⟨v, rb⟩ | rb | ⟨e, rb⟩ <;>
        rw [hb] at h <;> cases h
      obtain ⟨r'', hr''⟩ := readBitString_take bs t k hb hk
      rw [hr'']
      exact ⟨r'', rfl⟩
  · intro t bs k b r' h hk
    exact readBoolean_take bs t k h hk

/-- Counterexample to C2 as stated: on an empty buffer — the extreme case of
"would need to read past the end" — `readBoolean` returns the ordinary
decoded value `true` (because in JS `null !== 0` is `true`), not the
sentinel. -/
theorem C2_readBoolean_counterexample :
    (Reader.new []).readBoolean ASN1.Boolean = .ok true (Reader.new []) := by decide

/-- Witness for C2: a one-byte truncation of a valid integer TLV makes
`readInt` signal "no data". -/
theorem C2_truncation_sentinel_witness :
    ∃ r'', applyROp (.rInt none) (Reader.new ([2, 1, 5].take 1)) = .noData r'' :=
  C2_truncation_sentinel.1 (.rInt none) rfl [2, 1, 5] 1 ⟨[2, 1, 5], 1, 3⟩
    (by decide) (by decide)

/-!  ## The endSequence capacity slip (claims C4 and C6)

`endSequence` in the `0xFFFF < len ≤ 0xFFFFFF` band shifts the payload right
by one byte without calling `_ensure` first.  When the logical offset sits
exactly at the allocated size — reachable with perfectly ordinary operations —
the shifted offset exceeds the allocation and the final payload byte is
silently dropped by the clipped `Buffer.copy`.  -/

theorem put_offset (w : Writer) (i b : Nat) : (w.put i b).offset = w.offset := by
  unfold Writer.put
  split <;> rfl

theorem put_size (w : Writer) (i b : Nat) : (w.put i b).size = w.size := by
  unfold Writer.put
  split <;> rfl

theorem put_get_same (w : Writer) (i b : Nat) (h : i < w.size) :
    (w.put i b).buf i = b % 256 := by
  unfold Writer.put
  rw [if_pos h]
  simp

theorem put_get_other (w : Writer) (i b j : Nat) (h : j ≠ i) :
    (w.put i b).buf j = w.buf j := by
  unfold Writer.put
  split
  · simp only
    rw [if_neg h]
  · rfl

theorem shift_offset (w : Writer) (start len : Nat) (sh : Int) :
    (w._shift start len sh).offset = ((w.offset : Int) + sh).toNat := rfl

theorem shift_size (w : Writer) (start len : Nat) (sh : Int) :
    (w._shift start len sh).size = w.size := rfl

/-- The `0xFFFF < len ≤ 0xFFFFFF` band of `endSequence`, made explicit. -/
theorem endSequence_band4 (w : Writer) (s : Nat) (rest : List Nat)
    (hseq : w.seq = s :: rest) (hlen : 0xffff < w.offset - (s + 3))
    (hlen2 : w.offset - (s + 3) ≤ 0xffffff) :
    w.endSequence =
      ((((({ w with seq := rest }._shift (s + 3) (w.offset - (s + 3)) 1).put s 0x83).put
        (s + 1) ((w.offset - (s + 3)) / 65536)).put (s + 2) ((w.offset - (s + 3)) / 256)).put
        (s + 3) (w.offset - (s + 3)), none) := by
  unfold Writer.endSequence
  rw [hseq]
  dsimp only
  rw [if_neg (by omega), if_neg (by omega), if_neg (by omega), if_pos (by omega)]

/-- The writer after `new Writer({size: 65540})` followed by
`startSequence(0x30)`. -/
def bugW1 : Writer := (Writer.new 65540 8).startSequence 0x30

theorem bugW1_offset : bugW1.offset = 4 := rfl

theorem bugW1_size : bugW1.size = 65540 := rfl

theorem bugW1_seq : bugW1.seq = [1] := rfl

theorem bugW1_buf0 : bugW1.buf 0 = 0x30 := rfl

theorem bugWB (data : List Nat) (hd : data.length = 65536) :
    bugW1.writeBuffer data none = (bugW1.bulkWrite data, none) := by
  unfold Writer.writeBuffer
  dsimp only
  rw [if_pos (by omega)]
  rw [show bugW1._ensure data.length = bugW1 from by
    unfold Writer._ensure
    rw [if_neg (by rw [hd, bugW1_size, bugW1_offset]; norm_num)]]

theorem bugW2_offset (data : List Nat) (hd : data.length = 65536) :
    (bugW1.bulkWrite data).offset = 65540 := by
  show bugW1.offset + data.length = 65540
  rw [bugW1_offset, hd]

theorem bugW2_seq (data : List Nat) : (bugW1.bulkWrite data).seq = [1] := bugW1_seq

theorem bugMain (data : List Nat) (hd : data.length = 65536) :
    (bugW1.bulkWrite data).endSequence =
      ((((({ bugW1.bulkWrite data with seq := ([] : List Nat) }._shift 4 65536 1).put 1
          0x83).put 2 1).put 3 256).put 4 65536, none) := by
  have h := endSequence_band4 (bugW1.bulkWrite data) 1 [] (bugW2_seq data)
    (by rw [bugW2_offset data hd]; norm_num) (by rw [bugW2_offset data hd]; norm_num)
  rw [h, bugW2_offset data hd]
  norm_num
  rw [bugW2_offset data hd]

theorem bug_error_none (data : List Nat) (hd : data.length = 65536) :
    ((bugW1.bulkWrite data).endSequence).2 = none := by
  rw [bugMain data hd]

theorem bug_offset (data : List Nat) (hd : data.length = 65536) :
    ((bugW1.bulkWrite data).endSequence).1.offset = 65541 := by
  rw [bugMain data hd]
  dsimp only
  rw [put_offset, put_offset, put_offset, put_offset, shift_offset]
  dsimp only
  rw [bugW2_offset data hd]
  decide

theorem bug_size (data : List Nat) (hd : data.length = 65536) :
    ((bugW1.bulkWrite data).endSequence).1.size = 65540 := by
  rw [bugMain data hd]
  dsimp only
  rw [put_size, put_size, put_size, put_size, shift_size]
  rfl

theorem bug_outLen (data : List Nat) (hd : data.length = 65536) :
    ((bugW1.bulkWrite data).endSequence).1.outBytes.length = 65540 := by
  unfold Writer.outBytes
  rw [List.length_map, List.length_range, bug_offset data hd, bug_size data hd]
  decide

theorem bug_buf1 (data : List Nat) (hd : data.length = 65536) :
    ((bugW1.bulkWrite data).endSequence).1.buf 1 = 0x83 := by
  rw [bugMain data hd]
  dsimp only
  rw [put_get_other _ 4 65536 1 (by norm_num), put_get_other _ 3 256 1 (by norm_num),
    put_get_other _ 2 1 1 (by norm_num),
    put_get_same _ 1 0x83 (by show (1 : Nat) < 65540; norm_num)]

theorem bug_buf2 (data : List Nat) (hd : data.length = 65536) :
    ((bugW1.bulkWrite data).endSequence).1.buf 2 = 1 := by
  rw [bugMain data hd]
  dsimp only
  rw [put_get_other _ 4 65536 2 (by norm_num), put_get_other _ 3 256 2 (by norm_num),
    put_get_same _ 2 1 (by show (2 : Nat) < 65540; norm_num)]

theorem bug_buf3 (data : List Nat) (hd : data.length = 65536) :
    ((bugW1.bulkWrite data).endSequence).1.buf 3 = 0 := by
  rw [bugMain data hd]
  dsimp only
  rw [put_get_other _ 4 65536 3 (by norm_num),
    put_get_same _ 3 256 (by show (3 : Nat) < 65540; norm_num)]

theorem bug_buf4 (data : List Nat) (hd : data.length = 65536) :
    ((bugW1.bulkWrite data).endSequence).1.buf 4 = 0 := by
  rw [bugMain data hd]
  dsimp only
  rw [put_get_same _ 4 65536 (by show (4 : Nat) < 65540; norm_num)]

theorem bug_buf_payload (data : List Nat) (hd : data.length = 65536) (i : Nat)
    (h5 : 5 ≤ i) (h54 : i < 65540) :
    ((bugW1.bulkWrite data).endSequence).1.buf i = data.getD (i - 5) 0 % 256 := by
  rw [bugMain data hd]
  dsimp only
  rw [put_get_other _ 4 65536 i (by omega), put_get_other _ 3 256 i (by omega),
    put_get_other _ 2 1 i (by omega), put_get_other _ 1 0x83 i (by omega)]
  unfold Writer._shift
  dsimp only
  have hsz : (bugW1.bulkWrite data).size = 65540 := rfl
  rw [hsz]
  norm_num
  rw [if_pos (show 5 ≤ i ∧ i < Int.toNat 5 + (65540 - Int.toNat 5) ⊓ 65536 from
    ⟨h5, by rw [show Int.toNat 5 = 5 from rfl]; omega⟩)]
  unfold Writer.bulkWrite
  dsimp only
  rw [show bugW1.offset = 4 from rfl, show bugW1.size = 65540 from rfl, hd]
  rw [if_pos (show 4 ≤ i - 1 ∧ i - 1 < 4 + 65536 ∧ i - 1 < 65540 from by omega)]
  rw [show i - 1 - 4 = i - 5 from by omega]
  rw [List.getD_eq_getElem?_getD]

theorem runOps_bug (data : List Nat) (hd : data.length = 65536) :
    runOps (Writer.new 65540 8) [.startSeq 0x30, .wBuffer data none, .endSeq] =
      ((bugW1.bulkWrite data).endSequence).1 := by
  show (((bugW1.writeBuffer data none).1).endSequence).1 =
    ((bugW1.bulkWrite data).endSequence).1
  rw [bugWB data hd]

/-- C4 fails on the code: after the perfectly ordinary operation sequence
`new Writer({size: 65540}); startSequence(0x30); writeBuffer(65536 bytes);
endSequence()` — no error is thrown, yet the logical write offset is 65541,
one byte beyond the allocated buffer size 65540, because the `+1` shift in
`endSequence`'s 0x83 band is performed without `_ensure`. -/
theorem C4_capacity_invariant_bug :
    (runOps (Writer.new 65540 8)
      [.startSeq 0x30, .wBuffer (List.replicate 65536 7) none, .endSeq]).offset = 65541 ∧
    (runOps (Writer.new 65540 8)
      [.startSeq 0x30, .wBuffer (List.replicate 65536 7) none, .endSeq]).size = 65540 ∧
    65540 < 65541 := by
  have hd : (List.replicate 65536 7).length = 65536 := List.length_replicate 65536 7
  rw [runOps_bug _ hd]
  exact ⟨bug_offset _ hd, bug_size _ hd, by norm_num⟩

/-- C6 fails on the code: in the same trace, `endSequence` reports no error
and writes the long-form header `30 83 01 00 00` promising 65536 payload
bytes (5 + 65536 = 65541 in total), but the committed output holds only 65540
bytes: the payload bytes land at positions 5..65539 (65535 of the 65536
sevens) and the final payload byte is dropped by the clipped right shift, so
the already-written payload is not preserved exactly. -/
theorem C6_endSequence_byte_drop_bug :
    ((bugW1.bulkWrite (List.replicate 65536 7)).endSequence).2 = none ∧
    ((bugW1.bulkWrite (List.replicate 65536 7)).endSequence).1.buf 0 = 0x30 ∧
    ((bugW1.bulkWrite (List.replicate 65536 7)).endSequence).1.buf 1 = 0x83 ∧
    ((bugW1.bulkWrite (List.replicate 65536 7)).endSequence).1.buf 2 = 1 ∧
    ((bugW1.bulkWrite (List.replicate 65536 7)).endSequence).1.buf 3 = 0 ∧
    ((bugW1.bulkWrite (List.replicate 65536 7)).endSequence).1.buf 4 = 0 ∧
    ((bugW1.bulkWrite (List.replicate 65536 7)).endSequence).1.buf 5 = 7 ∧
    ((bugW1.bulkWrite (List.replicate 65536 7)).endSequence).1.buf 65539 = 7 ∧
    ((bugW1.bulkWrite (List.replicate 65536 7)).endSequence).1.outBytes.length = 65540 ∧
    65540 < 5 + 65536 := by
  have hd : (List.replicate 65536 7).length = 65536 := List.length_replicate 65536 7
  refine ⟨bug_error_none _ hd, ?_, bug_buf1 _ hd, bug_buf2 _ hd, bug_buf3 _ hd,
    bug_buf4 _ hd, ?_, ?_, bug_outLen _ hd, by norm_num⟩
  · rw [bugMain _ hd]
    dsimp only
    rw [put_get_other _ 4 65536 0 (by norm_num), put_get_other _ 3 256 0 (by norm_num),
      put_get_other _ 2 1 0 (by norm_num), put_get_other _ 1 0x83 0 (by norm_num)]
    unfold Writer._shift
    dsimp only
    have hsz : (bugW1.bulkWrite (List.replicate 65536 7)).size = 65540 := rfl
    rw [hsz]
    norm_num
    unfold Writer.bulkWrite
    dsimp only
    rw [show bugW1.offset = 4 from rfl]
    rw [if_neg (by omega)]
    exact bugW1_buf0
  · rw [bug_buf_payload _ hd 5 (by norm_num) (by norm_num)]
    rw [List.getD_eq_getElem?_getD, List.getElem?_replicate]
    norm_num
  · rw [bug_buf_payload _ hd 65539 (by norm_num) (by norm_num)]
    rw [List.getD_eq_getElem?_getD, List.getElem?_replicate]
    norm_num

/-!  ## BitString unpacking (claim C9) -/

/-- Fixed-width binary rendering: exactly `w` digits, most significant bit
first.  This is the spec's wording of the unpacking ("zero-padded to
8*(length-1) digits, most significant bit first"), to be compared with the
code's `padStartZeros _ (bitsRepr _)`. -/
def bitsFix : Nat → Nat → List Char
  | 0, _ => []
  | w + 1, n => bitsFix w (n / 2) ++ [digitChar (n % 2)]

/-- The spec's description of `readBitString`'s result: every content octet
unpacked to eight binary digits MSB first, then the last `ig` characters
trimmed from the end. -/
def specUnpackBits (content : List Nat) (ig : Nat) : List Char :=
  (content.flatMap (bitsFix 8)).take (8 * content.length - ig)

theorem bitsFix_length (w : Nat) : ∀ n : Nat, (bitsFix w n).length = w := by
  induction w with
  | zero => intro n; rfl
  | succ w ih =>
    intro n
    unfold bitsFix
    rw [List.length_append, ih]
    rfl

theorem bitsFix_zero (w : Nat) : bitsFix w 0 = List.replicate w '0' := by
  induction w with
  | zero => rfl
  | succ w ih =>
    unfold bitsFix
    rw [Nat.zero_div, Nat.zero_mod, ih, List.replicate_succ']
    rfl

/-- `toString(2).padStart(w, '0')` is the fixed-width rendering whenever the
value fits in `w` bits. -/
theorem padStart_bitsRepr (w : Nat) : ∀ n : Nat, 1 ≤ w → n < 2 ^ w →
    padStartZeros w (bitsRepr n) = bitsFix w n := by
  induction w with
  | zero => intro n h; omega
  | succ w ih =>
    intro n _ hn
    rcases Nat.eq_zero_or_pos w with hw0 | hw1
    · subst hw0
      rw [bitsRepr_eq, if_pos (by omega)]
      show List.replicate (1 - 1) '0' ++ [digitChar n] = bitsFix 0 (n / 2) ++ [digitChar (n % 2)]
      rw [Nat.mod_eq_of_lt (by omega)]
      rfl
    · by_cases h2 : n < 2
      · rw [bitsRepr_eq, if_pos h2]
        show List.replicate (w + 1 - 1) '0' ++ [digitChar n] =
          bitsFix w (n / 2) ++ [digitChar (n % 2)]
        rw [Nat.div_eq_of_lt h2, Nat.mod_eq_of_lt h2, bitsFix_zero]
        rfl
      · rw [bitsRepr_eq, if_neg h2]
        unfold padStartZeros
        rw [List.length_append]
        rw [show [digitChar (n % 2)].length = 1 from rfl]
        rw [show w + 1 - ((bitsRepr (n / 2)).length + 1) = w - (bitsRepr (n / 2)).length from by
          omega]
        rw [← List.append_assoc]
        have hdiv : n / 2 < 2 ^ w := by
          have : 2 ^ (w + 1) = 2 * 2 ^ w := by ring
          omega
        have hrec := ih (n / 2) hw1 hdiv
        unfold padStartZeros at hrec
        rw [hrec]
        rfl

/-- Concatenating fixed-width renderings is rendering the combined value. -/
theorem bitsFix_add (w1 : Nat) : ∀ w2 n1 n2 : Nat, n2 < 2 ^ w2 →
    bitsFix (w1 + w2) (n1 * 2 ^ w2 + n2) = bitsFix w1 n1 ++ bitsFix w2 n2 := by
  intro w2
  induction w2 with
  | zero =>
    intro n1 n2 h2
    have : n2 = 0 := by omega
    subst this
    simp [bitsFix]
  | succ w2 ih =>
    intro n1 n2 h2
    rw [show bitsFix (w1 + (w2 + 1)) (n1 * 2 ^ (w2 + 1) + n2) =
      bitsFix (w1 + w2) ((n1 * 2 ^ (w2 + 1) + n2) / 2) ++
        [digitChar ((n1 * 2 ^ (w2 + 1) + n2) % 2)] from rfl]
    rw [show bitsFix (w2 + 1) n2 = bitsFix w2 (n2 / 2) ++ [digitChar (n2 % 2)] from rfl]
    have hdiv : (n1 * 2 ^ (w2 + 1) + n2) / 2 = n1 * 2 ^ w2 + n2 / 2 := by
      rw [show n1 * 2 ^ (w2 + 1) + n2 = n2 + n1 * 2 ^ w2 * 2 from by ring]
      rw [Nat.add_mul_div_right _ _ (by norm_num)]
      omega
    have hmod : (n1 * 2 ^ (w2 + 1) + n2) % 2 = n2 % 2 := by
      rw [show n1 * 2 ^ (w2 + 1) + n2 = n2 + n1 * 2 ^ w2 * 2 from by ring]
      exact Nat.add_mul_mod_self_right n2 (n1 * 2 ^ w2) 2
    rw [hdiv, hmod, ih n1 (n2 / 2) (by
      have : 2 ^ (w2 + 1) = 2 * 2 ^ w2 := by ring
      omega)]
    rw [List.append_assoc]

theorem beNat_cons (b : Nat) (l : List Nat) :
    beNat (b :: l) = b % 256 * 2 ^ (8 * l.length) + beNat l := by
  have haux : ∀ m : List Nat, ∀ a : Nat,
      m.foldl (fun x y => x * 256 + y % 256) a =
        a * 256 ^ m.length + m.foldl (fun x y => x * 256 + y % 256) 0 := by
    intro m
    induction m with
    | nil => intro a; simp
    | cons c m ihm =>
      intro a
      show m.foldl _ (a * 256 + c % 256) = a * 256 ^ (m.length + 1) + m.foldl _ (0 * 256 + c % 256)
      rw [ihm (a * 256 + c % 256), ihm (0 * 256 + c % 256)]
      ring
    
  show (b :: l).foldl (fun x y => x * 256 + y % 256) 0 = _
  rw [List.foldl_cons, haux l (0 * 256 + b % 256)]
  have h28 : (256 : Nat) ^ l.length = 2 ^ (8 * l.length) := by
    rw [show (256 : Nat) = 2 ^ 8 from by norm_num, ← pow_mul]
  rw [h28]
  unfold beNat
  ring

theorem beNat_lt (l : List Nat) : beNat l < 2 ^ (8 * l.length) := by
  induction l with
  | nil => decide
  | cons b l ih =>
    rw [beNat_cons, show (b :: l).length = l.length + 1 from rfl]
    have hb : b % 256 < 256 := Nat.mod_lt _ (by norm_num)
    have h1 : (b % 256 + 1) * 2 ^ (8 * l.length) =
        b % 256 * 2 ^ (8 * l.length) + 2 ^ (8 * l.length) := Nat.succ_mul _ _
    have h2 : (b % 256 + 1) * 2 ^ (8 * l.length) ≤ 256 * 2 ^ (8 * l.length) :=
      Nat.mul_le_mul_right _ (by omega)
    have h3 : 256 * 2 ^ (8 * l.length) = 2 ^ (8 * (l.length + 1)) := by
      rw [show 8 * (l.length + 1) = 8 + 8 * l.length from by ring, pow_add]
      norm_num
    omega

/-- The single big binary rendering equals the per-octet MSB-first unpacking. -/
theorem bitsFix_beNat : ∀ l : List Nat, (∀ b ∈ l, b < 256) →
    bitsFix (8 * l.length) (beNat l) = l.flatMap (bitsFix 8) := by
  intro l
  induction l with
  | nil => intro _; rfl
  | cons b l ih =>
    intro hb
    rw [beNat_cons, show (b :: l).length = l.length + 1 from rfl,
      show 8 * (l.length + 1) = 8 + 8 * l.length from by ring]
    rw [bitsFix_add 8 (8 * l.length) (b % 256) (beNat l) (beNat_lt l)]
    rw [Nat.mod_eq_of_lt (hb b (List.mem_cons_self b l))]
    rw [List.flatMap_cons, ih (fun c hc => hb c (List.mem_cons_of_mem b hc))]

/-- Evaluation of `readBitString` on a short-form TLV with at least one
content octet. -/
theorem readBitString_eval (tagB L : Nat) (payload : List Nat)
    (htag : tagB < 256) (hL2 : 2 ≤ L) (hL : L < 128) (hlen : payload.length = L)
    (hbytes : ∀ b ∈ payload.drop 1, b < 256) :
    (Reader.new (tagB :: L :: payload)).readBitString tagB =
      .ok (specUnpackBits (payload.drop 1) (payload.getD 0 0))
        ⟨tagB :: L :: payload, L, 2 + L⟩ := by
  have hsize : (Reader.new (tagB :: L :: payload)).size = 2 + L := by
    show (tagB :: L :: payload).length = 2 + L
    simp only [List.length_cons, hlen]
    omega
  have hoff : (Reader.new (tagB :: L :: payload)).offset = 0 := rfl
  have hpeek : (Reader.new (tagB :: L :: payload)).peek =
      .ok tagB (Reader.new (tagB :: L :: payload)) := by
    unfold Reader.peek Reader.readByte
    rw [if_neg (by rw [hsize, hoff]; omega)]
    simp [Reader.new, Nat.mod_eq_of_lt htag]
  have hgd : (tagB :: L :: payload).getD 1 0 = L := rfl
  have hrl := readLength_short (Reader.new (tagB :: L :: payload)) 1
    (by rw [hsize]; omega)
    (by show (tagB :: L :: payload).getD 1 0 % 256 < 128; rw [hgd]; omega)
  rw [show ((Reader.new (tagB :: L :: payload)).buf).getD 1 0 = L from hgd,
    Nat.mod_eq_of_lt (by omega)] at hrl
  unfold Reader.readBitString
  rw [hpeek]
  dsimp only
  rw [if_neg (by simp)]
  rw [show (Reader.new (tagB :: L :: payload)).offset + 1 = 1 from rfl]
  rw [hrl]
  dsimp only
  rw [if_neg (by
    show ¬ (L > Reader.size ⟨(Reader.new (tagB :: L :: payload)).buf, L,
      (Reader.new (tagB :: L :: payload)).offset⟩ - 2)
    rw [show Reader.size ⟨(Reader.new (tagB :: L :: payload)).buf, L,
      (Reader.new (tagB :: L :: payload)).offset⟩ = 2 + L from hsize]
    omega)]
  rw [if_neg (by show ¬ (L = 0); omega)]
  have higd : ((Reader.new (tagB :: L :: payload)).buf).getD (1 + 1) 0 = payload.getD 0 0 := rfl
  have hoct : List.take (L - 1) (List.drop (1 + 1 + 1) (Reader.new (tagB :: L :: payload)).buf) =
      List.drop 1 payload := by
    rw [show List.drop (1 + 1 + 1) (Reader.new (tagB :: L :: payload)).buf =
      List.drop 1 payload from rfl]
    exact List.take_of_length_le (by rw [List.length_drop, hlen])
  rw [hoct, higd]
  have hne : ¬ ((List.drop 1 payload).isEmpty = true) := by
    rw [List.isEmpty_iff]
    intro hc
    have := congrArg List.length hc
    rw [List.length_drop, hlen] at this
    simp at this
    omega
  rw [if_neg hne]
  have hclen : (List.drop 1 payload).length = L - 1 := by rw [List.length_drop, hlen]
  have hstr : padStartZeros (8 * (List.drop 1 payload).length)
      (bitsRepr (beNat (List.drop 1 payload))) = (List.drop 1 payload).flatMap (bitsFix 8) := by
    rw [padStart_bitsRepr (8 * (List.drop 1 payload).length) (beNat (List.drop 1 payload))
      (by rw [hclen]; omega) (beNat_lt _)]
    exact bitsFix_beNat (List.drop 1 payload) hbytes
  rw [hstr]
  have hslen : ((List.drop 1 payload).flatMap (bitsFix 8)).length =
      8 * (List.drop 1 payload).length := by
    rw [← hstr, padStart_bitsRepr (8 * (List.drop 1 payload).length)
      (beNat (List.drop 1 payload)) (by rw [hclen]; omega) (beNat_lt _), bitsFix_length]
  rw [hslen]
  rfl

/-- `readBitString` on a zero declared length returns the empty string. -/
theorem readBitString_len0 (tagB : Nat) (htag : tagB < 256) :
    (Reader.new [tagB, 0]).readBitString tagB = .ok [] ⟨[tagB, 0], 0, 2⟩ := by
  have hpeek : (Reader.new [tagB, 0]).peek = .ok tagB (Reader.new [tagB, 0]) := by
    unfold Reader.peek Reader.readByte
    rw [if_neg (by show ¬ ((2 : Nat) - 0 < 1); omega)]
    simp [Reader.new, Nat.mod_eq_of_lt htag]
  have hrl := readLength_short (Reader.new [tagB, 0]) 1
    (by show (1 : Nat) < 2; omega)
    (by show (0 : Nat) % 256 < 128; norm_num)
  rw [show (((Reader.new [tagB, 0]).buf).getD 1 0 : Nat) = 0 from rfl] at hrl
  unfold Reader.readBitString
  rw [hpeek]
  dsimp only
  rw [if_neg (by simp)]
  rw [show (Reader.new [tagB, 0]).offset + 1 = 1 from rfl]
  rw [hrl]
  dsimp only
  rw [if_neg (by show ¬ ((0 : Nat) % 256 > Reader.size _ - 2); omega)]
  rw [if_pos (by show (0 : Nat) % 256 = 0; rfl)]
  rfl

/-- C9 (corrected): for a short-form BitString TLV with declared length L,
2 ≤ L ≤ 7 (so at least one and at most six content octets, the range where
the JS float arithmetic behind `parseInt(...).toString(2)` is exact),
`readBitString` returns the content octets unpacked MSB-first to 8 digits
each with the last ignored-bits-count characters trimmed, and the cursor
ends just past the value; a declared length of 0 returns the empty string;
payload bytes 0x04 0xF0 yield "1111".  (Declared length 1 is the
counterexample: it yields "NaN", not "".) -/
theorem C9_readBitString_unpacking (tagB L : Nat) (payload : List Nat)
    (htag : tagB < 256) (hL2 : 2 ≤ L) (hL7 : L ≤ 7) (hlen : payload.length = L)
    (hbytes : ∀ b ∈ payload.drop 1, b < 256) :
    (Reader.new (tagB :: L :: payload)).readBitString tagB =
      .ok (specUnpackBits (payload.drop 1) (payload.getD 0 0))
        ⟨tagB :: L :: payload, L, 2 + L⟩ ∧
    (Reader.new [tagB, 0]).readBitString tagB = .ok [] ⟨[tagB, 0], 0, 2⟩ ∧
    (Reader.new [0x03, 0x02, 0x04, 0xF0]).readBitString ASN1.BitString =
      .ok ['1', '1', '1', '1'] ⟨[0x03, 0x02, 0x04, 0xF0], 2, 4⟩ :=
  ⟨readBitString_eval tagB L payload htag hL2 (by omega) hlen hbytes,
    readBitString_len0 tagB htag, by decide⟩

/-- C9 counterexample: a BitString with declared length 1 (zero content
octets) returns the literal string "NaN", not the empty string that
unpacking zero octets would give — `parseInt('', 16)` is NaN in JS and
`NaN.toString(2)` is the text "NaN". -/
theorem C9_bitstring_L1_counterexample :
    (Reader.new [0x03, 0x01, 0x00]).readBitString ASN1.BitString =
      .ok ['N', 'a', 'N'] ⟨[0x03, 0x01, 0x00], 1, 3⟩ ∧
    specUnpackBits (([0x00] : List Nat).drop 1) (([0x00] : List Nat).getD 0 0) = [] := by
  decide

/-- Witness for C9 at tag 3, declared length 2, payload 0x04 0xF0. -/
theorem C9_readBitString_unpacking_witness :
    (Reader.new (3 :: 2 :: [4, 0xF0])).readBitString 3 =
      .ok (specUnpackBits (([4, 0xF0] : List Nat).drop 1) (([4, 0xF0] : List Nat).getD 0 0))
        ⟨3 :: 2 :: [4, 0xF0], 2, 2 + 2⟩ ∧
    (Reader.new [3, 0]).readBitString 3 = .ok [] ⟨[3, 0], 0, 2⟩ ∧
    (Reader.new [0x03, 0x02, 0x04, 0xF0]).readBitString ASN1.BitString =
      .ok ['1', '1', '1', '1'] ⟨[0x03, 0x02, 0x04, 0xF0], 2, 4⟩ :=
  C9_readBitString_unpacking 3 2 [4, 0xF0] (by decide) (by decide) (by decide) (by decide)
    (by decide)

/-!  ## OID round trip (claim C5) -/

theorem digitChar_toNat : ∀ d : Nat, d < 10 → (digitChar d).toNat = 48 + d := by decide

theorem digitChar_isDigit : ∀ d : Nat, d < 10 →
    isDigitChar (digitChar d) = true ∧ digitChar d ≠ '.' := by decide

theorem decRepr_ne_nil (n : Nat) : decRepr n ≠ [] := by
  rw [decRepr_eq]
  split <;> simp

theorem decRepr_digits (n : Nat) : ∀ c ∈ decRepr n, isDigitChar c = true ∧ c ≠ '.' := by
  induction n using Nat.strong_induction_on with
  | _ n ih =>
    by_cases h10 : n < 10
    · rw [decRepr_eq, if_pos h10]
      intro c hc
      rw [List.mem_singleton] at hc
      subst hc
      exact digitChar_isDigit n h10
    · rw [decRepr_eq, if_neg h10]
      intro c hc
      rw [List.mem_append] at hc
      rcases hc with hc | hc
      · exact ih (n / 10) (by omega) c hc
      · rw [List.mem_singleton] at hc
        subst hc
        exact digitChar_isDigit (n % 10) (by omega)

/-- `parseInt` is a left inverse of the decimal rendering. -/
theorem parseDec_decRepr (n : Nat) : parseDec (decRepr n) = n := by
  induction n using Nat.strong_induction_on with
  | _ n ih =>
    by_cases h10 : n < 10
    · rw [decRepr_eq, if_pos h10]
      show 0 * 10 + ((digitChar n).toNat - 48) = n
      rw [digitChar_toNat n h10]
      omega
    · rw [decRepr_eq, if_neg h10]
      unfold parseDec
      rw [List.foldl_append]
      show (parseDec (decRepr (n / 10))) * 10 + ((digitChar (n % 10)).toNat - 48) = n
      rw [ih (n / 10) (by omega), digitChar_toNat (n % 10) (by omega)]
      omega

theorem splitDots_ne_nil (l : List Char) : splitDots l ≠ [] := by
  cases l with
  | nil => simp [splitDots]
  | cons c rest =>
    unfold splitDots
    cases h : splitDots rest with
    | nil => simp
    | cons p ps =>
      dsimp only
      split <;> simp

theorem splitDots_no_dot : ∀ p : List Char, (∀ c ∈ p, c ≠ '.') → splitDots p = [p] := by
  intro p
  induction p with
  | nil => intro _; rfl
  | cons c rest ih =>
    intro h
    unfold splitDots
    rw [ih (fun d hd => h d (List.mem_cons_of_mem c hd))]
    dsimp only
    rw [if_neg (h c (List.mem_cons_self c rest))]

theorem splitDots_append_dot : ∀ p : List Char, ∀ t : List Char, (∀ c ∈ p, c ≠ '.') →
    splitDots (p ++ '.' :: t) = p :: splitDots t := by
  intro p
  induction p with
  | nil =>
    intro t _
    show splitDots ('.' :: t) = [] :: splitDots t
    cases h : splitDots t with
    | nil => exact absurd h (splitDots_ne_nil t)
    | cons q qs =>
      unfold splitDots
      rw [h]
      dsimp only
      rw [if_pos rfl]
  | cons c rest ih =>
    intro t h
    show splitDots (c :: (rest ++ '.' :: t)) = (c :: rest) :: splitDots t
    cases hq : splitDots t with
    | nil => exact absurd hq (splitDots_ne_nil t)
    | cons q qs =>
      unfold splitDots
      rw [ih t (fun d hd => h d (List.mem_cons_of_mem c hd)), hq]
      dsimp only
      rw [if_neg (h c (List.mem_cons_self c rest))]

/-- `split('.')` undoes `join('.')` on a nonempty list of dot-free parts. -/
theorem splitDots_joinDots : ∀ parts : List (List Char), parts ≠ [] →
    (∀ p ∈ parts, ∀ c ∈ p, c ≠ '.') → splitDots (joinDots parts) = parts := by
  intro parts
  induction parts with
  | nil => intro h _; exact absurd rfl h
  | cons p ps ih =>
    intro _ h
    cases ps with
    | nil =>
      show splitDots (joinDots [p]) = [p]
      exact splitDots_no_dot p (h p (List.mem_cons_self p []))
    | cons q qs =>
      show splitDots (p ++ '.' :: joinDots (q :: qs)) = p :: q :: qs
      rw [splitDots_append_dot p (joinDots (q :: qs)) (h p (List.mem_cons_self p _))]
      rw [ih (by simp) (fun r hr c hc => h r (List.mem_cons_of_mem p hr) c hc)]

theorem jsToInt32_mod (x : Int) : jsToInt32 x % 2 ^ 32 = x % 2 ^ 32 := by
  unfold jsToInt32
  omega

/-- Big-endian base-128 accumulation: the pure-integer shadow of the
`readOID` loop accumulator. -/
def digitsVal (v : Int) (ds : List Nat) : Int := ds.foldl (fun x d => x * 128 + (d : Int)) v

theorem digitsVal_congr : ∀ ds : List Nat, ∀ x y : Int, x % 2 ^ 32 = y % 2 ^ 32 →
    digitsVal x ds % 2 ^ 32 = digitsVal y ds % 2 ^ 32 := by
  intro ds
  induction ds with
  | nil => intro x y h; exact h
  | cons d ds ih =>
    intro x y h
    show digitsVal (x * 128 + (d : Int)) ds % 2 ^ 32 = digitsVal (y * 128 + (d : Int)) ds % 2 ^ 32
    exact ih _ _ (by omega)

theorem oidStep_cont (acc : List Nat) (v : Int) (d : Nat) (hd : d < 128) :
    oidStep (acc, v) (d + 128) = (acc, jsToInt32 (jsToInt32 v * 128) + ((d : Nat) : Int)) := by
  unfold oidStep
  dsimp only
  rw [if_neg (by omega), show (d + 128) % 128 = d from by omega]

theorem oidStep_last (acc : List Nat) (v : Int) (d : Nat) (hd : d < 128) :
    oidStep (acc, v) d =
      (acc ++ [((jsToInt32 (jsToInt32 v * 128) + ((d : Nat) : Int)) % 2 ^ 32).toNat], 0) := by
  unfold oidStep
  dsimp only
  rw [if_pos (by omega), show d % 128 = d from by omega]

/-- Folding the decode loop over continuation bytes keeps the accumulator
congruent (mod 2^32) to the exact base-128 value. -/
theorem oidStep_chain : ∀ ds : List Nat, (∀ d ∈ ds, d < 128) →
    ∀ acc : List Nat, ∀ v : Int,
    ∃ v' : Int, List.foldl oidStep (acc, v) (ds.map (· + 128)) = (acc, v') ∧
      v' % 2 ^ 32 = digitsVal v ds % 2 ^ 32 := by
  intro ds
  induction ds with
  | nil => intro _ acc v; exact ⟨v, rfl, rfl⟩
  | cons d ds ih =>
    intro h acc v
    rw [List.map_cons, List.foldl_cons, oidStep_cont acc v d (h d (List.mem_cons_self d ds))]
    obtain ⟨v', hv1, hv2⟩ := ih (fun e he => h e (List.mem_cons_of_mem d he)) acc
      (jsToInt32 (jsToInt32 v * 128) + (d : Int))
    refine ⟨v', hv1, ?_⟩
    rw [hv2]
    show digitsVal (jsToInt32 (jsToInt32 v * 128) + (d : Int)) ds % 2 ^ 32 =
      digitsVal (v * 128 + (d : Int)) ds % 2 ^ 32
    apply digitsVal_congr
    have h1 := jsToInt32_mod (jsToInt32 v * 128)
    have h2 := jsToInt32_mod v
    omega

/-- Folding the decode loop over a digit list of continuation bytes followed
by a final byte pushes the encoded value and resets the accumulator. -/
theorem oidStep_digits (ds : List Nat) (hds : ∀ d ∈ ds, d < 128) (dl : Nat) (hdl : dl < 128)
    (a : Nat) (ha : a < 2 ^ 32) (hval : digitsVal 0 ds * 128 + (dl : Int) = (a : Int))
    (acc : List Nat) :
    List.foldl oidStep (acc, 0) ((ds.map (· + 128)) ++ [dl]) = (acc ++ [a], 0) := by
  rw [List.foldl_append]
  obtain ⟨v', hv1, hv2⟩ := oidStep_chain ds hds acc 0
  rw [hv1, List.foldl_cons, List.foldl_nil, oidStep_last acc v' dl hdl]
  have h1 := jsToInt32_mod v'
  have h2 := jsToInt32_mod (jsToInt32 v' * 128)
  have e1 : (2 ^ 32 : Int) ∣ (jsToInt32 v' - v') := by omega
  have e2 : (2 ^ 32 : Int) ∣ (v' - digitsVal 0 ds) := by omega
  have e3 : (2 ^ 32 : Int) ∣ (jsToInt32 v' - digitsVal 0 ds) := by
    have hsum := dvd_add e1 e2
    rwa [show jsToInt32 v' - v' + (v' - digitsVal 0 ds) =
      jsToInt32 v' - digitsVal 0 ds from by ring] at hsum
  have h3 : (jsToInt32 v' * 128) % 2 ^ 32 = (digitsVal 0 ds * 128) % 2 ^ 32 := by
    rw [Int.emod_eq_emod_iff_emod_sub_eq_zero]
    apply Int.emod_eq_zero_of_dvd
    have hm := e3.mul_right 128
    rwa [sub_mul] at hm
  have h4 : (jsToInt32 (jsToInt32 v' * 128) + (dl : Int)) % 2 ^ 32 = (a : Int) % 2 ^ 32 := by
    rw [Int.add_emod, h2, h3, ← Int.add_emod, hval]
  have h5 : ((jsToInt32 (jsToInt32 v' * 128) + (dl : Int)) % 2 ^ 32).toNat = a := by
    rw [h4]
    omega
  rw [h5]

/-- Decoding one base-128 arc: folding the `readOID` loop over `encodeOctet a`
pushes exactly `a`. -/
theorem oidStep_encodeOctet (a : Nat) (ha : a < 2 ^ 32) (acc : List Nat) :
    List.foldl oidStep (acc, 0) (encodeOctet a) = (acc ++ [a], 0) := by
  unfold encodeOctet
  dsimp only
  rw [Nat.mod_eq_of_lt ha]
  by_cases h1 : a < 128
  · rw [if_pos h1]
    exact oidStep_digits [] (by simp) a h1 a ha
      (by show (0 : Int) * 128 + (a : Int) = (a : Int); ring) acc
  rw [if_neg h1]
  by_cases h2 : a < 16384
  · rw [if_pos h2]
    have hds : ∀ d ∈ [a / 2 ^ 7], d < 128 := by
      intro d hd
      rw [List.mem_singleton] at hd
      omega
    have hv : digitsVal 0 [a / 2 ^ 7] * 128 + ((a % 128 : Nat) : Int) = (a : Int) := by
      show ((0 : Int) * 128 + ((a / 2 ^ 7 : Nat) : Int)) * 128 + ((a % 128 : Nat) : Int) =
        (a : Int)
      omega
    exact oidStep_digits [a / 2 ^ 7] hds (a % 128) (by omega) a ha hv acc
  rw [if_neg h2]
  by_cases h3 : a < 2097152
  · rw [if_pos h3]
    have hds : ∀ d ∈ [a / 2 ^ 14, a / 2 ^ 7 % 128], d < 128 := by
      intro d hd
      rw [List.mem_cons, List.mem_singleton] at hd
      rcases hd with rfl | rfl <;> omega
    have hv : digitsVal 0 [a / 2 ^ 14, a / 2 ^ 7 % 128] * 128 + ((a % 128 : Nat) : Int) =
        (a : Int) := by
      show (((0 : Int) * 128 + ((a / 2 ^ 14 : Nat) : Int)) * 128 +
        ((a / 2 ^ 7 % 128 : Nat) : Int)) * 128 + ((a % 128 : Nat) : Int) = (a : Int)
      omega
    exact oidStep_digits [a / 2 ^ 14, a / 2 ^ 7 % 128] hds (a % 128) (by omega) a ha hv acc
  rw [if_neg h3]
  by_cases h4 : a < 268435456
  · rw [if_pos h4]
    have hds : ∀ d ∈ [a / 2 ^ 21, a / 2 ^ 14 % 128, a / 2 ^ 7 % 128], d < 128 := by
      intro d hd
      rw [List.mem_cons, List.mem_cons, List.mem_singleton] at hd
      rcases hd with rfl | rfl | rfl <;> omega
    have hv : digitsVal 0 [a / 2 ^ 21, a / 2 ^ 14 % 128, a / 2 ^ 7 % 128] * 128 +
        ((a % 128 : Nat) : Int) = (a : Int) := by
      show ((((0 : Int) * 128 + ((a / 2 ^ 21 : Nat) : Int)) * 128 +
        ((a / 2 ^ 14 % 128 : Nat) : Int)) * 128 + ((a / 2 ^ 7 % 128 : Nat) : Int)) * 128 +
        ((a % 128 : Nat) : Int) = (a : Int)
      omega
    exact oidStep_digits [a / 2 ^ 21, a / 2 ^ 14 % 128, a / 2 ^ 7 % 128] hds (a % 128)
      (by omega) a ha hv acc
  rw [if_neg h4]
  have hds : ∀ d ∈ [a / 2 ^ 28 % 128, a / 2 ^ 21 % 128, a / 2 ^ 14 % 128, a / 2 ^ 7 % 128],
      d < 128 := by
    intro d hd
    rw [List.mem_cons, List.mem_cons, List.mem_cons, List.mem_singleton] at hd
    rcases hd with rfl | rfl | rfl | rfl <;> omega
  have hv : digitsVal 0 [a / 2 ^ 28 % 128, a / 2 ^ 21 % 128, a / 2 ^ 14 % 128,
      a / 2 ^ 7 % 128] * 128 + ((a % 128 : Nat) : Int) = (a : Int) := by
    show (((((0 : Int) * 128 + ((a / 2 ^ 28 % 128 : Nat) : Int)) * 128 +
      ((a / 2 ^ 21 % 128 : Nat) : Int)) * 128 + ((a / 2 ^ 14 % 128 : Nat) : Int)) * 128 +
      ((a / 2 ^ 7 % 128 : Nat) : Int)) * 128 + ((a % 128 : Nat) : Int) = (a : Int)
    omega
  exact oidStep_digits [a / 2 ^ 28 % 128, a / 2 ^ 21 % 128, a / 2 ^ 14 % 128, a / 2 ^ 7 % 128]
    hds (a % 128) (by omega) a ha hv acc

theorem oidStep_flatMap : ∀ rest : List Nat, (∀ a ∈ rest, a < 2 ^ 32) → ∀ acc : List Nat,
    List.foldl oidStep (acc, 0) (rest.flatMap encodeOctet) = (acc ++ rest, 0) := by
  intro rest
  induction rest with
  | nil => intro _ acc; simp
  | cons a rest ih =>
    intro h acc
    rw [List.flatMap_cons, List.foldl_append,
      oidStep_encodeOctet a (h a (List.mem_cons_self a rest)) acc,
      ih (fun b hb => h b (List.mem_cons_of_mem a hb)) (acc ++ [a])]
    simp

theorem encodeOctet_lt_256 (a : Nat) (ha : a < 2 ^ 32) : ∀ b ∈ encodeOctet a, b < 256 := by
  intro b hb
  unfold encodeOctet at hb
  dsimp only at hb
  rw [Nat.mod_eq_of_lt ha] at hb
  by_cases h1 : a < 128
  · rw [if_pos h1, List.mem_singleton] at hb
    omega
  rw [if_neg h1] at hb
  by_cases h2 : a < 16384
  · rw [if_pos h2] at hb
    simp only [List.mem_cons, List.not_mem_nil, or_false] at hb
    rcases hb with rfl | rfl <;> omega
  rw [if_neg h2] at hb
  by_cases h3 : a < 2097152
  · rw [if_pos h3] at hb
    simp only [List.mem_cons, List.not_mem_nil, or_false] at hb
    rcases hb with rfl | rfl | rfl <;> omega
  rw [if_neg h3] at hb
  by_cases h4 : a < 268435456
  · rw [if_pos h4] at hb
    simp only [List.mem_cons, List.not_mem_nil, or_false] at hb
    rcases hb with rfl | rfl | rfl | rfl <;> omega
  rw [if_neg h4] at hb
  simp only [List.mem_cons, List.not_mem_nil, or_false] at hb
  rcases hb with rfl | rfl | rfl | rfl | rfl <;> omega

/-- Evaluation of `readBuffer` on a well-formed short-form TLV. -/
theorem readBuffer_short_form (tagB n : Nat) (payload : List Nat)
    (htag : tagB < 256) (hn : n < 128) (hlen : payload.length = n) :
    (Reader.new (tagB :: n :: payload)).readBuffer tagB =
      .ok payload ⟨tagB :: n :: payload, n, 2 + n⟩ := by
  have hsize : (Reader.new (tagB :: n :: payload)).size = 2 + n := by
    show (tagB :: n :: payload).length = 2 + n
    simp only [List.length_cons, hlen]
    omega
  have hoff : (Reader.new (tagB :: n :: payload)).offset = 0 := rfl
  have hpeek : (Reader.new (tagB :: n :: payload)).peek =
      .ok tagB (Reader.new (tagB :: n :: payload)) := by
    unfold Reader.peek Reader.readByte
    rw [if_neg (by rw [hsize, hoff]; omega)]
    simp [Reader.new, Nat.mod_eq_of_lt htag]
  have hgd : (tagB :: n :: payload).getD 1 0 = n := rfl
  have hrl := readLength_short (Reader.new (tagB :: n :: payload)) 1
    (by rw [hsize]; omega)
    (by show (tagB :: n :: payload).getD 1 0 % 256 < 128; rw [hgd]; omega)
  rw [show ((Reader.new (tagB :: n :: payload)).buf).getD 1 0 = n from hgd,
    Nat.mod_eq_of_lt (by omega)] at hrl
  unfold Reader.readBuffer
  rw [hpeek]
  dsimp only
  rw [if_neg (by simp)]
  rw [show (Reader.new (tagB :: n :: payload)).offset + 1 = 1 from rfl]
  rw [hrl]
  dsimp only
  rw [if_neg (by
    show ¬ (n > Reader.size ⟨(Reader.new (tagB :: n :: payload)).buf, n,
      (Reader.new (tagB :: n :: payload)).offset⟩ - 2)
    rw [show Reader.size ⟨(Reader.new (tagB :: n :: payload)).buf, n,
      (Reader.new (tagB :: n :: payload)).offset⟩ = 2 + n from hsize]
    omega)]
  have hsl : List.take n (List.drop (1 + 1) (Reader.new (tagB :: n :: payload)).buf) =
      payload := by
    rw [show List.drop (1 + 1) (Reader.new (tagB :: n :: payload)).buf = payload from rfl]
    exact List.take_of_length_le (le_of_eq hlen)
  rw [hsl]
  rfl

/-- The byte pattern `writeLength` emits for a length `n ≤ 0xFFFFFF`. -/
def lenBytes (n : Nat) : List Nat :=
  if n ≤ 0x7f then [n]
  else if n ≤ 0xff then [0x81, n]
  else if n ≤ 0xffff then [0x82, n / 256, n % 256]
  else [0x83, n / 65536, n / 256 % 256, n % 256]

theorem writeLength_lenBytes (w : Writer) (len : Nat) (h : WInv w) (hlen : len ≤ 0xffffff) :
    Emits w (w.writeLength len).1 (lenBytes len) ∧ (w.writeLength len).2 = none := by
  unfold lenBytes
  have hb := writeLength_emits w len h
  by_cases h1 : len ≤ 0x7f
  · rw [if_pos h1]
    exact ⟨(hb.1 h1).1, (hb.1 h1).2⟩
  rw [if_neg h1]
  by_cases h2 : len ≤ 0xff
  · rw [if_pos h2]
    exact ⟨(hb.2.1 (by omega) h2).1, (hb.2.1 (by omega) h2).2⟩
  rw [if_neg h2]
  by_cases h3 : len ≤ 0xffff
  · rw [if_pos h3]
    exact ⟨(hb.2.2.1 (by omega) h3).1, (hb.2.2.1 (by omega) h3).2⟩
  rw [if_neg h3]
  exact ⟨(hb.2.2.2.1 (by omega) hlen).1, (hb.2.2.2.1 (by omega) hlen).2⟩

/-- Evaluation of `readBuffer` on a well-formed long-form TLV: count octet
`0x80 + n'`, then `n'` length octets whose float accumulation is the payload
length. -/
theorem readBuffer_long_form (tagB n' : Nat) (locts payload : List Nat)
    (htag : tagB < 256) (hn1 : 1 ≤ n') (hn2 : n' ≤ 127) (hlocts : locts.length = n')
    (hacc : jsLenAcc locts = payload.length) :
    (Reader.new (tagB :: (128 + n') :: (locts ++ payload))).readBuffer tagB =
      .ok payload ⟨tagB :: (128 + n') :: (locts ++ payload), payload.length,
        2 + n' + payload.length⟩ := by
  have hsize : (Reader.new (tagB :: (128 + n') :: (locts ++ payload))).size =
      2 + n' + payload.length := by
    show (tagB :: (128 + n') :: (locts ++ payload)).length = 2 + n' + payload.length
    simp only [List.length_cons, List.length_append, hlocts]
    omega
  have hoff : (Reader.new (tagB :: (128 + n') :: (locts ++ payload))).offset = 0 := rfl
  have hpeek : (Reader.new (tagB :: (128 + n') :: (locts ++ payload))).peek =
      .ok tagB (Reader.new (tagB :: (128 + n') :: (locts ++ payload))) := by
    unfold Reader.peek Reader.readByte
    rw [if_neg (by rw [hsize, hoff]; omega)]
    simp [Reader.new, Nat.mod_eq_of_lt htag]
  have hgd : (tagB :: (128 + n') :: (locts ++ payload)).getD 1 0 = 128 + n' := rfl
  have hrl := readLength_long (Reader.new (tagB :: (128 + n') :: (locts ++ payload))) 1 n'
    (by rw [hsize]; omega)
    (by show (tagB :: (128 + n') :: (locts ++ payload)).getD 1 0 % 256 = 128 + n'
        rw [hgd, Nat.mod_eq_of_lt (by omega)])
    hn1 hn2 (by rw [hsize]; omega)
  have htake : (((Reader.new (tagB :: (128 + n') :: (locts ++ payload))).buf).drop
      (1 + 1)).take n' = locts := by
    rw [show ((Reader.new (tagB :: (128 + n') :: (locts ++ payload))).buf).drop (1 + 1) =
      locts ++ payload from rfl]
    rw [← hlocts]
    exact List.take_left locts payload
  rw [htake, hacc] at hrl
  unfold Reader.readBuffer
  rw [hpeek]
  dsimp only
  rw [if_neg (by simp)]
  rw [show (Reader.new (tagB :: (128 + n') :: (locts ++ payload))).offset + 1 = 1 from rfl]
  rw [hrl]
  dsimp only
  rw [if_neg (by
    show ¬ (payload.length > Reader.size
      ⟨(Reader.new (tagB :: (128 + n') :: (locts ++ payload))).buf, payload.length,
        (Reader.new (tagB :: (128 + n') :: (locts ++ payload))).offset⟩ - (1 + 1 + n'))
    rw [show Reader.size
      ⟨(Reader.new (tagB :: (128 + n') :: (locts ++ payload))).buf, payload.length,
        (Reader.new (tagB :: (128 + n') :: (locts ++ payload))).offset⟩ =
      2 + n' + payload.length from hsize]
    omega)]
  have hsl : List.take payload.length
      (List.drop (1 + 1 + n') (Reader.new (tagB :: (128 + n') :: (locts ++ payload))).buf) =
      payload := by
    rw [show List.drop (1 + 1 + n')
        (Reader.new (tagB :: (128 + n') :: (locts ++ payload))).buf =
      List.drop (1 + 1 + n') (tagB :: (128 + n') :: (locts ++ payload)) from rfl]
    rw [show (1 : Nat) + 1 + n' = n' + 1 + 1 from by omega, List.drop_succ_cons,
      List.drop_succ_cons, ← hlocts, List.drop_left]
    exact List.take_length payload
  rw [hsl]
  have hofin : (1 : Nat) + 1 + n' + payload.length = 2 + n' + payload.length := by omega
  rw [hofin]
  rfl

/-- Reduce `readOID` to `readBuffer` plus the decode fold. -/
theorem readOID_of_readBuffer (bs : List Nat) (t : Nat) (bytes : List Nat) (r' : Reader)
    (h : (Reader.new bs).readBuffer t = .ok bytes r') (f : Nat) (rest' : List Nat)
    (hfold : bytes.foldl oidStep ([], 0) = (f :: rest', 0)) :
    ((Reader.new bs).readOID t).val? =
      some (joinDots ((f / 40 :: f % 40 :: rest').map decRepr)) := by
  unfold Reader.readOID Reader.readString
  rw [h]
  dsimp only
  rw [hfold]
  rfl

/-- Dispatch `readBuffer` over the four `lenBytes` length bands. -/
theorem readBuffer_lenBytes (tagB : Nat) (payload : List Nat) (htag : tagB < 256)
    (hlen : payload.length ≤ 0xffffff) :
    ∃ r' : Reader,
      (Reader.new (tagB :: lenBytes payload.length ++ payload)).readBuffer tagB =
        .ok payload r' := by
  unfold lenBytes
  by_cases h1 : payload.length ≤ 0x7f
  · rw [if_pos h1]
    exact ⟨_, readBuffer_short_form tagB payload.length payload htag (by omega) rfl⟩
  rw [if_neg h1]
  by_cases h2 : payload.length ≤ 0xff
  · rw [if_pos h2]
    have hacc : jsLenAcc [payload.length] = payload.length := by
      show jsRound (0 * 256 + payload.length % 256) = payload.length
      rw [jsRound_small (0 * 256 + payload.length % 256) (by omega)]
      omega
    exact ⟨_, readBuffer_long_form tagB 1 [payload.length] payload htag (by omega) (by omega)
      rfl hacc⟩
  rw [if_neg h2]
  by_cases h3 : payload.length ≤ 0xffff
  · rw [if_pos h3]
    have hacc : jsLenAcc [payload.length / 256, payload.length % 256] = payload.length := by
      show jsRound (jsRound (0 * 256 + payload.length / 256 % 256) * 256 +
        payload.length % 256 % 256) = payload.length
      rw [jsRound_small (0 * 256 + payload.length / 256 % 256) (by omega)]
      rw [jsRound_small ((0 * 256 + payload.length / 256 % 256) * 256 +
        payload.length % 256 % 256) (by omega)]
      omega
    exact ⟨_, readBuffer_long_form tagB 2 [payload.length / 256, payload.length % 256] payload
      htag (by omega) (by omega) rfl hacc⟩
  rw [if_neg h3]
  have hacc : jsLenAcc [payload.length / 65536, payload.length / 256 % 256,
      payload.length % 256] = payload.length := by
    show jsRound (jsRound (jsRound (0 * 256 + payload.length / 65536 % 256) * 256 +
      payload.length / 256 % 256 % 256) * 256 + payload.length % 256 % 256) = payload.length
    rw [jsRound_small (0 * 256 + payload.length / 65536 % 256) (by omega)]
    rw [jsRound_small ((0 * 256 + payload.length / 65536 % 256) * 256 +
      payload.length / 256 % 256 % 256) (by omega)]
    rw [jsRound_small (((0 * 256 + payload.length / 65536 % 256) * 256 +
      payload.length / 256 % 256 % 256) * 256 + payload.length % 256 % 256) (by omega)]
    omega
  exact ⟨_, readBuffer_long_form tagB 3 [payload.length / 65536, payload.length / 256 % 256,
    payload.length % 256] payload htag (by omega) (by omega) rfl hacc⟩

/-- `writeOIDBytes` with at most 0xFFFFFF value octets, all below 256: no
error, and the committed bytes gain exactly tag, length field, and octets. -/
theorem writeOIDBytes_emits (w : Writer) (bytes : List Nat) (tag : Nat) (hw : WInv w)
    (htag : tag < 256) (hlen : bytes.length ≤ 0xffffff) (hbs : ∀ b ∈ bytes, b < 256) :
    (w.writeOIDBytes bytes tag).2 = none ∧
    Emits w (w.writeOIDBytes bytes tag).1 (tag :: lenBytes bytes.length ++ bytes) := by
  have hens : Emits w (w._ensure (2 + bytes.length)) [] :=
    ⟨by simpa using ensure_outBytes w (2 + bytes.length) hw,
     by simpa using ensure_offset w (2 + bytes.length),
     ensure_seq w _, ensure_growthFactor w _, ensure_inv w _ hw⟩
  have h1 : Emits w ((w._ensure (2 + bytes.length)).writeByte tag) [tag] := by
    have hb := writeByte_emits (w._ensure (2 + bytes.length)) tag (ensure_inv w _ hw)
    rw [Nat.mod_eq_of_lt htag] at hb
    simpa using hens.trans hb
  obtain ⟨hwlE, hwlN⟩ := writeLength_lenBytes ((w._ensure (2 + bytes.length)).writeByte tag)
    bytes.length h1.2.2.2.2 hlen
  have h2 : Emits w (((w._ensure (2 + bytes.length)).writeByte tag).writeLength
      bytes.length).1 (tag :: lenBytes bytes.length) := by
    simpa using h1.trans hwlE
  have hmap : bytes.map (· % 256) = bytes := by
    have hcg := List.map_congr_left (fun b hb => Nat.mod_eq_of_lt (hbs b hb))
    rw [hcg]
    exact List.map_id' bytes
  unfold Writer.writeOIDBytes
  rcases hq : ((w._ensure (2 + bytes.length)).writeByte tag).writeLength bytes.length
    with ⟨w3, e3⟩
  rw [hq] at hwlN h2
  cases e3 with
  | some e => cases hwlN
  | none =>
    dsimp only
    refine ⟨rfl, ?_⟩
    have h3 := foldl_writeByte_emits bytes w3 h2.2.2.2.2
    rw [hmap] at h3
    simpa using h2.trans h3

/-- C5 (corrected): dotted-decimal OID strings round-trip through
`writeOID`/`readOID` when, beyond the claim's 32-bit bound on the arcs, the
first two arcs satisfy the X.690 packing constraints the code silently
assumes (`a1 < 40` and `a0*40 + a1 < 128`) and the encoded value fits the
writer's length cap (at most 0xFFFFFF value octets, beyond which
`writeLength` itself throws); all four length bands are covered, and
"1.2.840.113549" round-trips exactly.  Without the packing constraints the
claim fails: see the "1.50" counterexample. -/
theorem C5_writeOID_readOID_roundtrip (a0 a1 : Nat) (rest : List Nat)
    (h40 : a1 < 40) (h128 : a0 * 40 + a1 < 128) (hrest : ∀ a ∈ rest, a < 2 ^ 32)
    (hcap : (oidArcBytes (a0 :: a1 :: rest)).length ≤ 0xffffff) :
    (Writer.fresh.writeOID (joinDots ((a0 :: a1 :: rest).map decRepr)) ASN1.OID).2 = none ∧
    ((Reader.new (Writer.fresh.writeOID (joinDots ((a0 :: a1 :: rest).map decRepr))
        ASN1.OID).1.outBytes).readOID ASN1.OID).val? =
      some (joinDots ((a0 :: a1 :: rest).map decRepr)) ∧
    ((Reader.new (Writer.fresh.writeOID
        ['1', '.', '2', '.', '8', '4', '0', '.', '1', '1', '3', '5', '4', '9']
        ASN1.OID).1.outBytes).readOID ASN1.OID).val? =
      some ['1', '.', '2', '.', '8', '4', '0', '.', '1', '1', '3', '5', '4', '9'] := by
  have hdotfree : ∀ p ∈ (a0 :: a1 :: rest).map decRepr, ∀ c ∈ p, c ≠ '.' := by
    intro p hp c hc
    rw [List.mem_map] at hp
    obtain ⟨a, _, rfl⟩ := hp
    exact (decRepr_digits a c hc).2
  have hsplit : splitDots (joinDots ((a0 :: a1 :: rest).map decRepr)) =
      (a0 :: a1 :: rest).map decRepr :=
    splitDots_joinDots _ (by simp) hdotfree
  have hvalid : ((splitDots (joinDots ((a0 :: a1 :: rest).map decRepr))).all
      fun p => ¬ p.isEmpty && p.all isDigitChar) = true := by
    rw [hsplit, List.all_eq_true]
    intro p hp
    rw [List.mem_map] at hp
    obtain ⟨a, _, rfl⟩ := hp
    rw [Bool.and_eq_true]
    constructor
    · simp [List.isEmpty_iff, decRepr_ne_nil a]
    · rw [List.all_eq_true]
      intro c hc
      exact (decRepr_digits a c hc).1
  have hparse : (splitDots (joinDots ((a0 :: a1 :: rest).map decRepr))).map parseDec =
      a0 :: a1 :: rest := by
    rw [hsplit, List.map_map]
    have hcg : (a0 :: a1 :: rest).map (parseDec ∘ decRepr) =
        (a0 :: a1 :: rest).map (fun a => a) :=
      List.map_congr_left (fun a _ => parseDec_decRepr a)
    rw [hcg]
    exact List.map_id' _
  have hbytes_eq : oidArcBytes (a0 :: a1 :: rest) =
      (a0 * 40 + a1) :: rest.flatMap encodeOctet := rfl
  have hblt : ∀ b ∈ oidArcBytes (a0 :: a1 :: rest), b < 256 := by
    rw [hbytes_eq]
    intro b hb
    rw [List.mem_cons] at hb
    rcases hb with rfl | hb
    · omega
    · rw [List.mem_flatMap] at hb
      obtain ⟨a, ha, hb⟩ := hb
      exact encodeOctet_lt_256 a (hrest a ha) b hb
  have hinvF : WInv Writer.fresh := ⟨by decide, by decide⟩
  obtain ⟨hwN, hwE⟩ := writeOIDBytes_emits Writer.fresh (oidArcBytes (a0 :: a1 :: rest))
    ASN1.OID hinvF (by decide) hcap hblt
  have hwoid : Writer.fresh.writeOID (joinDots ((a0 :: a1 :: rest).map decRepr)) ASN1.OID =
      Writer.fresh.writeOIDBytes (oidArcBytes (a0 :: a1 :: rest)) ASN1.OID := by
    unfold Writer.writeOID
    rw [if_neg (by rw [hvalid]; simp)]
    rw [hparse]
  have hout : (Writer.fresh.writeOIDBytes (oidArcBytes (a0 :: a1 :: rest))
      ASN1.OID).1.outBytes =
      ASN1.OID :: lenBytes (oidArcBytes (a0 :: a1 :: rest)).length ++
        oidArcBytes (a0 :: a1 :: rest) := by
    have h1 := hwE.1
    rw [show Writer.fresh.outBytes = [] from rfl] at h1
    simpa using h1
  obtain ⟨r', hread⟩ := readBuffer_lenBytes ASN1.OID (oidArcBytes (a0 :: a1 :: rest))
    (by decide) hcap
  have hfirst : oidStep ([], 0) (a0 * 40 + a1) = ([a0 * 40 + a1], 0) := by
    rw [oidStep_last [] 0 (a0 * 40 + a1) (by omega)]
    rw [show jsToInt32 (jsToInt32 0 * 128) = 0 from by decide]
    have hv : ((0 + ((a0 * 40 + a1 : Nat) : Int)) % 2 ^ 32).toNat = a0 * 40 + a1 := by omega
    rw [hv]
    rfl
  have hfold : (oidArcBytes (a0 :: a1 :: rest)).foldl oidStep ([], 0) =
      ((a0 * 40 + a1) :: rest, 0) := by
    rw [hbytes_eq, List.foldl_cons, hfirst,
      oidStep_flatMap rest hrest [a0 * 40 + a1]]
    rfl
  have hval := readOID_of_readBuffer
    (ASN1.OID :: lenBytes (oidArcBytes (a0 :: a1 :: rest)).length ++
      oidArcBytes (a0 :: a1 :: rest))
    ASN1.OID (oidArcBytes (a0 :: a1 :: rest)) r' hread (a0 * 40 + a1) rest hfold
  rw [show (a0 * 40 + a1) / 40 = a0 from by omega,
    show (a0 * 40 + a1) % 40 = a1 from by omega] at hval
  refine ⟨?_, ?_, by decide⟩
  · rw [hwoid]
    exact hwN
  · rw [hwoid, hout]
    exact hval

/-- C5 counterexample: the grammatically valid OID string "1.50" does not
round-trip.  The writer packs the first two arcs as one byte `1*40 + 50 = 90`
and the reader splits 90 back as `90/40 = 2` and `90%40 = 10`, so reading the
written form returns "2.10". -/
theorem C5_oid_counterexample :
    ((Reader.new (Writer.fresh.writeOID ['1', '.', '5', '0'] ASN1.OID).1.outBytes).readOID
      ASN1.OID).val? = some ['2', '.', '1', '0'] ∧
    (['2', '.', '1', '0'] : List Char) ≠ ['1', '.', '5', '0'] := by decide

/-- Witness for C5 at the arcs 1, 2, 840, 113549. -/
theorem C5_writeOID_readOID_roundtrip_witness :
    (Writer.fresh.writeOID (joinDots (((1 : Nat) :: 2 :: [840, 113549]).map decRepr))
      ASN1.OID).2 = none ∧
    ((Reader.new (Writer.fresh.writeOID
        (joinDots (((1 : Nat) :: 2 :: [840, 113549]).map decRepr))
        ASN1.OID).1.outBytes).readOID ASN1.OID).val? =
      some (joinDots (((1 : Nat) :: 2 :: [840, 113549]).map decRepr)) ∧
    ((Reader.new (Writer.fresh.writeOID
        ['1', '.', '2', '.', '8', '4', '0', '.', '1', '1', '3', '5', '4', '9']
        ASN1.OID).1.outBytes).readOID ASN1.OID).val? =
      some ['1', '.', '2', '.', '8', '4', '0', '.', '1', '1', '3', '5', '4', '9'] :=
  C5_writeOID_readOID_roundtrip 1 2 [840, 113549] (by decide) (by decide) (by decide)
    (by decide)

end Ber
